import Mathlib

/-!
# simple-math-solver: a shallow embedding of `src/main.cpp`

The program reads one line, splits it on the space character, classifies each
piece as a token (`MathSolver::tokenizer`, `MathSolver::parse_int`), reorders
the tokens with a shunting-yard pass (`MathSolver::parse`) and returns from
`MathSolver::evaluate`.

Conventions of the embedding.

* A `std::string` is a `String`; its bytes are the `List Char` of the string.
* A `std::stack<Token>` is a `List Token` whose head is the top of the stack.
* `i32` and `i64` fields are `Int`; a field that the constructor used does not
  initialise is `none`.
* A call that the C++ standard leaves undefined (`top()` of an empty stack, a
  read of an uninitialised field) and an exception that nothing catches are
  explicit outcomes of the function, see `Outcome`.
-/

namespace MathSolver

/-! ## Data model -/

/-- The enumeration `TokenType` (main.cpp, lines 29-38). -/
inductive TokenType where
  | Number
  | Plus
  | Subtract
  | Multiply
  | Divide
  | OpenParenthesis
  | CloseParenthesis
  deriving DecidableEq, Repr

/-- The enumeration `ErrorKind` (main.cpp, lines 44-49). -/
inductive ErrorKind where
  | None
  | SyntaxError
  | ParseIntError
  deriving DecidableEq, Repr

/-- The class `Token` (main.cpp, lines 51-87): the type tag, the `i32`
precedence and the `i64` value.  `none` stands for a member that the
constructor left uninitialised. -/
structure Token where
  m_type : TokenType
  m_precedence : Option Int
  m_value : Option Int
  deriving DecidableEq, Repr

/-- The constructor `Token(TokenType type, i64 value)` (line 60): the precedence is
not initialised. -/
def Token.withValue (type : TokenType) (value : Int) : Token :=
  { m_type := type, m_precedence := none, m_value := some value }

/-- The constructor `Token(TokenType type)` (line 61): neither the precedence nor
the value is initialised. -/
def Token.ofType (type : TokenType) : Token :=
  { m_type := type, m_precedence := none, m_value := none }

/-- The constructor `Token(TokenType type, i32 precedence)` (line 62): the value is not
initialised. -/
def Token.withPrecedence (type : TokenType) (precedence : Int) : Token :=
  { m_type := type, m_precedence := some precedence, m_value := none }

/-- What a call of one of the member functions does: it returns a value, it lets
a `std::out_of_range` exception escape (nothing in the program catches it), or
it runs into behaviour the C++ standard leaves undefined. -/
inductive Outcome (α : Type) where
  | returned (a : α)
  | uncaughtOutOfRange
  | undefinedBehaviour
  deriving DecidableEq, Repr

/-- Sequencing of calls: the first outcome that is not a return ends the run. -/
def Outcome.bind {α β : Type} (x : Outcome α) (f : α → Outcome β) : Outcome β :=
  match x with
  | .returned a => f a
  | .uncaughtOutOfRange => .uncaughtOutOfRange
  | .undefinedBehaviour => .undefinedBehaviour

/-- Smallest `i64`. -/
def I64_MIN : Int := -9223372036854775808

/-- Largest `i64`. -/
def I64_MAX : Int := 9223372036854775807

/-! ## `std::stoll` and `parse_int` -/

/-- The result of `std::stoll(str)` with the default base 10: the converted value,
or one of the two exceptions the standard library throws. -/
inductive StollResult where
  | value (v : Int)
  | invalidArgument
  | outOfRange
  deriving DecidableEq, Repr

/-- The C locale's `isspace`: space, `\t`, `\n`, `\v`, `\f`, `\r`. -/
def isspace (c : Char) : Bool :=
  c = ' ' || c = '\t' || c = '\n' || c = '\x0b' || c = '\x0c' || c = '\r'

/-- The C locale's `isdigit`: the codes 48 (`0`) to 57 (`9`). -/
def isdigit (c : Char) : Bool :=
  48 ≤ c.toNat && c.toNat ≤ 57

/-- The value of a run of decimal digits read left to right, starting from `acc`; the
digit of a character is its code minus 48, the code of `0`. -/
def digitsValue (acc : Nat) (digits : List Char) : Nat :=
  digits.foldl (fun a c => 10 * a + (c.toNat - 48)) acc

/-- The remainder of `std::stoll` once leading white space is gone: an optional
sign, then the longest run of decimal digits; whatever follows the digits is
ignored (the call passes no `pos` argument and does not look at the rest). -/
def stollSigned (s : List Char) : StollResult :=
  let negative := s.head? = some '-'
  let body := if s.head? = some '-' ∨ s.head? = some '+' then s.tail else s
  let digits := body.takeWhile isdigit
  if digits = [] then .invalidArgument
  else
    let magnitude : Int := (digitsValue 0 digits : Nat)
    let v : Int := if negative then -magnitude else magnitude
    if I64_MIN ≤ v ∧ v ≤ I64_MAX then .value v else .outOfRange

/-- The call `std::stoll(__src)` (line 258), which is `strtoll` in base 10: leading
white space is skipped, `std::invalid_argument` when no digit can be converted,
`std::out_of_range` when the value does not fit a `long long`. -/
def stoll (s : List Char) : StollResult :=
  stollSigned (s.dropWhile isspace)

/-- The function `MathSolver::parse_int` (lines 254-267): the `try` block returns the
value with `ErrorKind::None`; the only `catch` clause is for
`std::invalid_argument` and returns `(-1, ParseIntError)`; a
`std::out_of_range` passes through. -/
def parse_int (src : List Char) : Outcome (Int × ErrorKind) :=
  match stoll src with
  | .value v => .returned (v, ErrorKind.None)
  | .invalidArgument => .returned (-1, ErrorKind.ParseIntError)
  | .outOfRange => .uncaughtOutOfRange

/-! ## `tokenizer` -/

/-- The splitting loop of `tokenizer` (lines 133-140): `std::getline(ss, temp, ' ')`
reads up to the next space character (or the end of the text), and a piece is
kept when it is not empty.  `cur` is the piece read so far, in reading order. -/
def splitLoop : List Char → List Char → List (List Char)
  | [], cur => if cur = [] then [] else [cur]
  | c :: cs, cur =>
    if c = ' ' then
      (if cur = [] then splitLoop cs [] else cur :: splitLoop cs [])
    else splitLoop cs (cur ++ [c])

/-- The body of the classification loop of `tokenizer` (lines 145-163) for one
piece: the tokens it appends (none or one). -/
def classify (token : List Char) : Outcome (List Token) :=
  (parse_int token).bind fun r =>
    if r.2 ≠ ErrorKind.ParseIntError then
      .returned [Token.withValue TokenType.Number r.1]
    else if token = ['+'] then .returned [Token.withPrecedence TokenType.Plus 1]
    else if token = ['-'] then .returned [Token.withPrecedence TokenType.Subtract 1]
    else if token = ['*'] then .returned [Token.withPrecedence TokenType.Multiply 2]
    else if token = ['/'] then .returned [Token.withPrecedence TokenType.Divide 2]
    else if token = ['('] then .returned [Token.ofType TokenType.OpenParenthesis]
    else if token = [')'] then .returned [Token.ofType TokenType.CloseParenthesis]
    else .returned []

/-- The classification loop of `tokenizer` (lines 142-164) over the pieces, in
order. -/
def classifyAll : List (List Char) → Outcome (List Token)
  | [] => .returned []
  | p :: ps =>
    (classify p).bind fun ts =>
      (classifyAll ps).bind fun rest => .returned (ts ++ rest)

/-- The function `MathSolver::tokenizer` (lines 129-167). -/
def tokenizer (src : String) : Outcome (List Token) :=
  classifyAll (splitLoop src.toList [])

/-! ## `parse` -/

/-- The `while (true)` loop of the `CloseParenthesis` branch (lines 200-213):
`top()` is called with no emptiness test, so an empty operator stack is
undefined behaviour; an operator is moved to the output, an
`OpenParenthesis` is popped and ends the loop.  The result is the pair of the
operator stack and the output stack. -/
def closeLoop : List Token → List Token → Outcome (List Token × List Token)
  | [], _ => .undefinedBehaviour
  | top :: ops, output =>
    if top.m_type ≠ TokenType.OpenParenthesis then closeLoop ops (top :: output)
    else .returned (ops, output)

/-- The `while (!operator_stack.empty())` loop of the operator branch (lines
217-229): the top is moved to the output while it is not an `OpenParenthesis`
and the precedence of `token` is strictly less than the precedence of the
top.  The comparison reads both `m_precedence` members. -/
def operatorLoop (token : Token) : List Token → List Token → Outcome (List Token × List Token)
  | [], output => .returned ([], output)
  | top :: ops, output =>
    if top.m_type ≠ TokenType.OpenParenthesis then
      match token.m_precedence, top.m_precedence with
      | some p, some q =>
        if p < q then operatorLoop token ops (top :: output)
        else .returned (top :: ops, output)
      | _, _ => .undefinedBehaviour
    else .returned (top :: ops, output)

/-- One iteration of the `for` loop of `parse` (lines 183-232) on the pair of the
operator stack and the output stack. -/
def parseStep (token : Token) (st : List Token × List Token) :
    Outcome (List Token × List Token) :=
  if token.m_type = TokenType.Number then .returned (st.1, token :: st.2)
  else if token.m_type = TokenType.OpenParenthesis then .returned (token :: st.1, st.2)
  else if token.m_type = TokenType.CloseParenthesis then closeLoop st.1 st.2
  else (operatorLoop token st.1 st.2).bind fun r => .returned (token :: r.1, r.2)

/-- The `for` loop of `parse` over the tokens. -/
def parseLoop : List Token → List Token × List Token → Outcome (List Token × List Token)
  | [], st => .returned st
  | t :: ts, st => (parseStep t st).bind (parseLoop ts)

/-- The final loop of `parse` (lines 235-240): every entry of the operator stack is
moved to the output, top first. -/
def drain : List Token → List Token → List Token
  | [], output => output
  | top :: ops, output => drain ops (top :: output)

/-- The function `MathSolver::parse` (lines 176-246): the output stack and the error
kind, which is set to `ErrorKind::None` before the only `return`. -/
def parse (src : List Token) : Outcome (List Token × ErrorKind) :=
  (parseLoop src ([], [])).bind fun st => .returned (drain st.1 st.2, ErrorKind.None)

/-- The postfix sequence held by an output stack: its entries from the bottom to
the top. -/
def bottomToTop (stack : List Token) : List Token := stack.reverse

/-! ## `evaluate` -/

/-- The function `MathSolver::evaluate` (lines 100-120): it tokenizes, parses, empties
the returned stack while printing it, and returns `-1`. -/
def evaluate (src : String) : Outcome Int :=
  (tokenizer src).bind fun tokenized =>
    (parse tokenized).bind fun _ => .returned (-1)

/-! ## Vocabulary of the specification -/

/-- The seven forms of token the specification speaks of: a number with its value,
the four binary operators and the two parentheses. -/
inductive Lexeme where
  | number (v : Int)
  | plus
  | subtract
  | multiply
  | divide
  | openParenthesis
  | closeParenthesis
  deriving DecidableEq, Repr

/-- The `Token` object the tokenizer constructs for a form (lines 148-163): operators
carry precedence 1 (`+`, `-`) or 2 (`*`, `/`). -/
def Lexeme.token : Lexeme → Token
  | .number v => Token.withValue TokenType.Number v
  | .plus => Token.withPrecedence TokenType.Plus 1
  | .subtract => Token.withPrecedence TokenType.Subtract 1
  | .multiply => Token.withPrecedence TokenType.Multiply 2
  | .divide => Token.withPrecedence TokenType.Divide 2
  | .openParenthesis => Token.ofType TokenType.OpenParenthesis
  | .closeParenthesis => Token.ofType TokenType.CloseParenthesis

/-- Decimal text of an integer: the digits of its magnitude, after a `-` when it is
negative. -/
def decimalText (v : Int) : List Char :=
  if v < 0 then '-' :: Nat.toDigits 10 v.natAbs else Nat.toDigits 10 v.natAbs

/-- The text of a form: the decimal text of a number, or the literal symbol. -/
def Lexeme.text : Lexeme → List Char
  | .number v => decimalText v
  | .plus => ['+']
  | .subtract => ['-']
  | .multiply => ['*']
  | .divide => ['/']
  | .openParenthesis => ['(']
  | .closeParenthesis => [')']

/-- A form whose number, if it is one, fits a 64-bit signed integer. -/
def Lexeme.fits : Lexeme → Prop
  | .number v => I64_MIN ≤ v ∧ v ≤ I64_MAX
  | _ => True

instance (l : Lexeme) : Decidable l.fits := by
  cases l <;> unfold Lexeme.fits <;> infer_instance

/-- A run of `k` space characters. -/
def spaces (k : Nat) : List Char := List.replicate k ' '

/-- The texts of the forms, each paired with a count `k`: two neighbours are
separated by `k + 1` spaces, and the last text is followed by `k` spaces. -/
def renderSpaced : List (Lexeme × Nat) → List Char
  | [] => []
  | [(l, k)] => l.text ++ spaces k
  | (l, k) :: rest => l.text ++ spaces (k + 1) ++ renderSpaced rest

/-- The texts of the forms, each one preceded by the separator paired with it. -/
def renderSeparated : List (List Char × Lexeme) → List Char
  | [] => []
  | (sep, l) :: rest => sep ++ l.text ++ renderSeparated rest

/-- A piece that is a base-10 integer and nothing else: an optional leading `-`, then
one or more decimal digits. -/
def isDecimalInteger (piece : List Char) : Bool :=
  let body := if piece.head? = some '-' then piece.tail else piece
  !body.isEmpty && body.all isdigit

/-- The token is one of the four binary operators. -/
def Token.isOperator (t : Token) : Prop :=
  t.m_type = TokenType.Plus ∨ t.m_type = TokenType.Subtract ∨
    t.m_type = TokenType.Multiply ∨ t.m_type = TokenType.Divide

instance (t : Token) : Decidable t.isOperator := by
  unfold Token.isOperator; infer_instance

/-- A binary operator token as the tokenizer builds it: precedence 1 for `Plus` and
`Subtract`, precedence 2 for `Multiply` and `Divide`. -/
def Token.isBinary (t : Token) : Prop :=
  ((t.m_type = TokenType.Plus ∨ t.m_type = TokenType.Subtract) ∧ t.m_precedence = some 1) ∨
    ((t.m_type = TokenType.Multiply ∨ t.m_type = TokenType.Divide) ∧ t.m_precedence = some 2)

instance (t : Token) : Decidable t.isBinary := by
  unfold Token.isBinary; infer_instance

/-- Well-formed infix expressions as token sequences: a number; an expression between
an opening and a closing parenthesis; two expressions around a binary
operator. -/
inductive WellFormed : List Token → Prop where
  | number (t : Token) (ht : t.m_type = TokenType.Number) : WellFormed [t]
  | group (o c : Token) (e : List Token) (ho : o.m_type = TokenType.OpenParenthesis)
      (hc : c.m_type = TokenType.CloseParenthesis) (he : WellFormed e) :
      WellFormed (o :: (e ++ [c]))
  | binary (l r : List Token) (op : Token) (hop : op.isBinary) (hl : WellFormed l) (hr : WellFormed r) :
      WellFormed (l ++ op :: r)

/-- One step of the value-stack scan of a postfix sequence, on the number of values
held: a number pushes one; an operator needs two and leaves one; a parenthesis
is an error. -/
def scanStep (depth : Nat) (t : Token) : Option Nat :=
  match t.m_type with
  | TokenType.Number => some (depth + 1)
  | TokenType.OpenParenthesis => none
  | TokenType.CloseParenthesis => none
  | _ => if 2 ≤ depth then some (depth - 1) else none

/-- The value-stack scan of a postfix sequence, left to right, from `depth` values:
the number of values left, or `none` when an operator finds fewer than two
values or a parenthesis is met. -/
def scanRpn : List Token → Nat → Option Nat
  | [], depth => some depth
  | t :: ts, depth => (scanStep depth t).bind (scanRpn ts)

/-- A valid postfix arrangement: the scan from the empty value stack succeeds and
leaves exactly one value. -/
def validRpn (seq : List Token) : Prop := scanRpn seq 0 = some 1

instance (seq : List Token) : Decidable (validRpn seq) := by
  unfold validRpn; infer_instance

/-- The number of values the scan of `bottomToTop stack` leaves, computed from the top
of the stack downwards. -/
def stackDepth : List Token → Option Nat
  | [] => some 0
  | top :: rest => (stackDepth rest).bind fun depth => scanStep depth top

/-- The operator stack at the start of an expression: empty, or with an
`OpenParenthesis` on top. -/
def AtGroupStart (ops : List Token) : Prop :=
  ∀ t ∈ ops.head?, t.m_type = TokenType.OpenParenthesis

/-- The same token sequences as `WellFormed`, read as the parser meets them: an
operand (a number or a parenthesised expression), then any number of
operator-operand pairs. -/
inductive Flat : List Token → Prop where
  | number (t : Token) (ht : t.m_type = TokenType.Number) : Flat [t]
  | group (o c : Token) (e : List Token) (ho : o.m_type = TokenType.OpenParenthesis)
      (hc : c.m_type = TokenType.CloseParenthesis) (he : Flat e) : Flat (o :: (e ++ [c]))
  | thenNumber (e : List Token) (op t : Token) (hop : op.isBinary)
      (ht : t.m_type = TokenType.Number) (he : Flat e) : Flat (e ++ [op, t])
  | thenGroup (e f : List Token) (op o c : Token) (hop : op.isBinary)
      (ho : o.m_type = TokenType.OpenParenthesis) (hc : c.m_type = TokenType.CloseParenthesis)
      (he : Flat e) (hf : Flat f) : Flat (e ++ op :: o :: (f ++ [c]))

/-- The token is an `OpenParenthesis`. -/
def isOpen (t : Token) : Bool := decide (t.m_type = TokenType.OpenParenthesis)

/-- The token is a `CloseParenthesis`. -/
def isClose (t : Token) : Bool := decide (t.m_type = TokenType.CloseParenthesis)

/-- The token is a `Number`. -/
def isNumber (t : Token) : Bool := decide (t.m_type = TokenType.Number)

/-- How many `OpenParenthesis` tokens a sequence holds. -/
def opens (l : List Token) : Nat := l.countP isOpen

/-- How many `CloseParenthesis` tokens a sequence holds. -/
def closes (l : List Token) : Nat := l.countP isClose

/-- The tokens of a sequence that are not parentheses, in order. -/
def nonParen (l : List Token) : List Token := l.filter fun t => !isOpen t && !isClose t

/-- The `Number` tokens of a sequence, in order. -/
def numbers (l : List Token) : List Token := l.filter isNumber

/-- No initial segment of the sequence has more `CloseParenthesis` than
`OpenParenthesis` tokens. -/
def PrefixBalanced (toks : List Token) : Prop :=
  ∀ pre ∈ toks.inits, closes pre ≤ opens pre

instance (toks : List Token) : Decidable (PrefixBalanced toks) := by
  unfold PrefixBalanced; infer_instance

/-- Balanced parentheses: no initial segment has more closes than opens, and the totals
are equal. -/
def Balanced (toks : List Token) : Prop :=
  PrefixBalanced toks ∧ closes toks = opens toks

instance (toks : List Token) : Decidable (Balanced toks) := by
  unfold Balanced; infer_instance

/-- A token as the tokenizer builds it, as far as `parse` reads it: an operator token
carries the precedence of its type. -/
def Token.isBuilt (t : Token) : Prop := t.isOperator → t.isBinary

instance (t : Token) : Decidable t.isBuilt := by
  unfold Token.isBuilt; infer_instance

/-- What the operator stack of `parse` holds: `OpenParenthesis` tokens and binary
operators. -/
def Token.isStackable (t : Token) : Prop :=
  t.m_type = TokenType.OpenParenthesis ∨ t.isBinary

/-- The six literal pieces the classification loop compares with. -/
def literalPieces : List (List Char) := [['+'], ['-'], ['*'], ['/'], ['('], [')']]

/-- Two tokens agree on what their constructors set: the type, the value when the
type is `Number`, the precedence when the type is a binary operator. -/
def Token.agree (t u : Token) : Prop :=
  t.m_type = u.m_type ∧ (t.m_type = TokenType.Number → t.m_value = u.m_value) ∧
    (t.isOperator → t.m_precedence = u.m_precedence)

instance (t u : Token) : Decidable (t.agree u) := by
  unfold Token.agree; infer_instance

/-- Two outcomes are of the same kind, with returned values related by `R`. -/
def Outcome.Rel {α β : Type} (R : α → β → Prop) : Outcome α → Outcome β → Prop
  | .returned a, .returned b => R a b
  | .uncaughtOutOfRange, .uncaughtOutOfRange => True
  | .undefinedBehaviour, .undefinedBehaviour => True
  | _, _ => False

/-- Two states of the loop of `parse` agree: the operator stacks agree entry by
entry, and so do the output stacks. -/
def StateAgree (st1 st2 : List Token × List Token) : Prop :=
  List.Forall₂ Token.agree st1.1 st2.1 ∧ List.Forall₂ Token.agree st1.2 st2.2

/-- Two results of `parse` agree: the output stacks agree entry by entry and the
error kinds are equal. -/
def ResultAgree (r1 r2 : List Token × ErrorKind) : Prop :=
  List.Forall₂ Token.agree r1.1 r2.1 ∧ r1.2 = r2.2

/-- The effect on the state of the loop of `parse` of the tokens `ts`: what the
operator stack holds, the count of open parentheses on it, the tokens held by
the output and the stack together, the numbers on the output, and the absence
of parentheses from the output. -/
def Effect (ts : List Token) (st st1 : List Token × List Token) : Prop :=
  (∀ t ∈ st1.1, t.isStackable) ∧
    opens st1.1 + closes ts = opens st.1 + opens ts ∧
    List.Perm (st1.2 ++ nonParen st1.1) (nonParen ts ++ (st.2 ++ nonParen st.1)) ∧
    numbers st1.2 = (numbers ts).reverse ++ numbers st.2 ∧
    ((∀ u ∈ st.2, isOpen u = false ∧ isClose u = false) →
      ∀ u ∈ st1.2, isOpen u = false ∧ isClose u = false)

/-! ## Lemmas on the parser -/

@[simp] theorem Outcome.bind_returned {α β : Type} (a : α) (f : α → Outcome β) :
    (Outcome.returned a).bind f = f a := rfl

theorem Outcome.bind_assoc {α β γ : Type} (x : Outcome α) (f : α → Outcome β)
    (g : β → Outcome γ) : (x.bind f).bind g = x.bind fun a => (f a).bind g := by
  cases x <;> rfl

theorem parseLoop_append (a b : List Token) (st : List Token × List Token) :
    parseLoop (a ++ b) st = (parseLoop a st).bind (parseLoop b) := by
  induction a generalizing st with
  | nil => rfl
  | cons t ts ih =>
    simp only [List.cons_append, parseLoop, Outcome.bind_assoc]
    congr 1
    funext st1
    exact ih st1

theorem scanRpn_snoc (xs : List Token) (t : Token) (d : Nat) :
    scanRpn (xs ++ [t]) d = (scanRpn xs d).bind fun k => scanStep k t := by
  induction xs generalizing d with
  | nil => cases h : scanStep d t <;> simp [scanRpn, h]
  | cons x xs ih =>
    cases h : scanStep d x with
    | none => simp [scanRpn, h]
    | some k => simp [scanRpn, h, ih]

theorem scanRpn_bottomToTop (stack : List Token) :
    scanRpn (bottomToTop stack) 0 = stackDepth stack := by
  induction stack with
  | nil => rfl
  | cons t rest ih =>
    have : bottomToTop (t :: rest) = bottomToTop rest ++ [t] := by simp [bottomToTop]
    rw [this, scanRpn_snoc, ih, stackDepth]

theorem Token.isBinary.not_number {t : Token} (h : t.isBinary) : t.m_type ≠ TokenType.Number := by
  rcases h with ⟨h | h, _⟩ | ⟨h | h, _⟩ <;> rw [h] <;> decide

theorem Token.isBinary.not_open {t : Token} (h : t.isBinary) :
    t.m_type ≠ TokenType.OpenParenthesis := by
  rcases h with ⟨h | h, _⟩ | ⟨h | h, _⟩ <;> rw [h] <;> decide

theorem Token.isBinary.not_close {t : Token} (h : t.isBinary) :
    t.m_type ≠ TokenType.CloseParenthesis := by
  rcases h with ⟨h | h, _⟩ | ⟨h | h, _⟩ <;> rw [h] <;> decide

theorem Token.isBinary.precedence_set {t : Token} (h : t.isBinary) :
    ∃ p, t.m_precedence = some p := by
  rcases h with ⟨_, h⟩ | ⟨_, h⟩ <;> exact ⟨_, h⟩

theorem scanStep_number {t : Token} (h : t.m_type = TokenType.Number) (d : Nat) :
    scanStep d t = some (d + 1) := by
  simp [scanStep, h]

theorem scanStep_binary {t : Token} (h : t.isBinary) (d : Nat) :
    scanStep (d + 2) t = some (d + 1) := by
  rcases h with ⟨h | h, _⟩ | ⟨h | h, _⟩ <;> simp [scanStep, h]

/-- Moving `k` operators onto an output stack that holds `n + k + 1` values leaves
`n + 1` values. -/
theorem stackDepth_push_operators (moved : List Token) (hm : ∀ t ∈ moved, t.isBinary) :
    ∀ (output : List Token) (n : Nat), stackDepth output = some (n + moved.length + 1) →
      stackDepth (moved.reverse ++ output) = some (n + 1) := by
  induction moved with
  | nil => intro output n h; simpa using h
  | cons t ts ih =>
    intro output n h
    have ht : t.isBinary := hm t (List.mem_cons_self _ _)
    have hts : ∀ u ∈ ts, u.isBinary := fun u hu => hm u (List.mem_cons_of_mem _ hu)
    have h1 : stackDepth (t :: output) = some (n + ts.length + 1) := by
      have h2 : stackDepth output = some ((n + ts.length) + 2) := by
        rw [h]; simp [List.length_cons]; omega
      simp [stackDepth, h2, scanStep_binary ht]
    have := ih hts (t :: output) n h1
    simpa [List.reverse_cons, List.append_assoc] using this

theorem drain_eq (ops output : List Token) : drain ops output = ops.reverse ++ output := by
  induction ops generalizing output with
  | nil => rfl
  | cons t ts ih => simp [drain, ih]

/-- The `CloseParenthesis` loop above a group: the operators stacked since the
`OpenParenthesis` go to the output, and the `OpenParenthesis` is dropped. -/
theorem closeLoop_group (inner : List Token) (hi : ∀ t ∈ inner, t.isBinary) (o : Token)
    (ho : o.m_type = TokenType.OpenParenthesis) (ops : List Token) :
    ∀ output, closeLoop (inner ++ o :: ops) output = .returned (ops, inner.reverse ++ output) := by
  induction inner with
  | nil => intro output; simp [closeLoop, ho]
  | cons t ts ih =>
    intro output
    have ht : t.m_type ≠ TokenType.OpenParenthesis := (hi t (List.mem_cons_self _ _)).not_open
    have hts : ∀ u ∈ ts, u.isBinary := fun u hu => hi u (List.mem_cons_of_mem _ hu)
    simp [closeLoop, ht, ih hts]

/-- The operator loop at an expression level: it moves a prefix of the operators
stacked at this level and stops at the base of the level at the latest. -/
theorem operatorLoop_level (op : Token) (hop : op.isBinary) (inner : List Token)
    (hi : ∀ t ∈ inner, t.isBinary) (ops : List Token) (hb : AtGroupStart ops) :
    ∀ output, ∃ moved rest, inner = moved ++ rest ∧
      operatorLoop op (inner ++ ops) output = .returned (rest ++ ops, moved.reverse ++ output) := by
  obtain ⟨p, hp⟩ := hop.precedence_set
  induction inner with
  | nil =>
    intro output
    refine ⟨[], [], rfl, ?_⟩
    cases ops with
    | nil => rfl
    | cons o ops1 =>
      have : o.m_type = TokenType.OpenParenthesis := hb o (by simp)
      simp [operatorLoop, this]
  | cons t ts ih =>
    intro output
    have ht : t.isBinary := hi t (List.mem_cons_self _ _)
    have hts : ∀ u ∈ ts, u.isBinary := fun u hu => hi u (List.mem_cons_of_mem _ hu)
    obtain ⟨q, hq⟩ := ht.precedence_set
    by_cases hlt : p < q
    · obtain ⟨moved, rest, hsplit, hrun⟩ := ih hts (t :: output)
      refine ⟨t :: moved, rest, by simp [hsplit], ?_⟩
      simp [operatorLoop, ht.not_open, hp, hq, hlt, hrun]
    · refine ⟨[], t :: ts, rfl, ?_⟩
      simp [operatorLoop, ht.not_open, hp, hq, hlt]

/-- One operator token at an expression level whose output holds one value more
than operators are stacked: the operator is stacked and the balance is kept. -/
theorem parseStep_operator (op : Token) (hop : op.isBinary) (inner : List Token)
    (hi : ∀ t ∈ inner, t.isBinary) (ops : List Token) (hb : AtGroupStart ops)
    (output : List Token) (d : Nat) (hd : stackDepth output = some (d + inner.length + 1)) :
    ∃ rest output1, parseStep op (inner ++ ops, output) = .returned (op :: rest ++ ops, output1) ∧
      (∀ t ∈ rest, t.isBinary) ∧ stackDepth output1 = some (d + rest.length + 1) := by
  obtain ⟨moved, rest, hsplit, hrun⟩ := operatorLoop_level op hop inner hi ops hb output
  have hmoved : ∀ t ∈ moved, t.isBinary := fun t ht => hi t (by simp [hsplit, ht])
  have hrest : ∀ t ∈ rest, t.isBinary := fun t ht => hi t (by simp [hsplit, ht])
  refine ⟨rest, moved.reverse ++ output, ?_, hrest, ?_⟩
  · simp [parseStep, hop.not_number, hop.not_open, hop.not_close, hrun]
  · apply stackDepth_push_operators moved hmoved
    rw [hd, hsplit]
    simp [List.length_append]
    omega

/-- A parenthesised group, given what the loop does on the expression inside: the
operator stack is as before and the output holds one value more. -/
theorem parseLoop_group (o c : Token) (e : List Token)
    (ho : o.m_type = TokenType.OpenParenthesis) (hc : c.m_type = TokenType.CloseParenthesis)
    (ih : ∀ (ops output : List Token) (d : Nat), AtGroupStart ops → stackDepth output = some d →
      ∃ inner output1, parseLoop e (ops, output) = .returned (inner ++ ops, output1) ∧
        (∀ t ∈ inner, t.isBinary) ∧ stackDepth output1 = some (d + inner.length + 1))
    (ops output : List Token) (d : Nat) (hd : stackDepth output = some d) :
    ∃ output1, parseLoop (o :: (e ++ [c])) (ops, output) = .returned (ops, output1) ∧
      stackDepth output1 = some (d + 1) := by
  have hstart : AtGroupStart (o :: ops) := by
    intro t ht
    simp at ht
    rw [← ht]; exact ho
  obtain ⟨inner, output1, hrun, hinner, hdepth⟩ := ih (o :: ops) output d hstart hd
  have ho1 : o.m_type ≠ TokenType.Number := by rw [ho]; decide
  have hc1 : c.m_type ≠ TokenType.Number := by rw [hc]; decide
  have hc2 : c.m_type ≠ TokenType.OpenParenthesis := by rw [hc]; decide
  refine ⟨inner.reverse ++ output1, ?_, stackDepth_push_operators inner hinner output1 d hdepth⟩
  have h1 : parseLoop (o :: (e ++ [c])) (ops, output)
      = (parseLoop e (o :: ops, output)).bind (parseLoop [c]) := by
    rw [parseLoop]
    simp only [parseStep, ho1, ho, if_true, if_false, Outcome.bind_returned]
    exact parseLoop_append e [c] _
  rw [h1, hrun]
  simp [parseLoop, parseStep, hc1, hc2, hc, closeLoop_group inner hinner o ho ops]

/-- The loop of `parse` on an expression: the operators it leaves stacked are all
above the stack it started from, and the output holds one value more than
operators are stacked. -/
theorem parseLoop_flat (e : List Token) (he : Flat e) :
    ∀ (ops output : List Token) (d : Nat), AtGroupStart ops → stackDepth output = some d →
      ∃ inner output1, parseLoop e (ops, output) = .returned (inner ++ ops, output1) ∧
        (∀ t ∈ inner, t.isBinary) ∧ stackDepth output1 = some (d + inner.length + 1) := by
  induction he with
  | number t ht =>
    intro ops output d _ hd
    refine ⟨[], t :: output, ?_, by simp, ?_⟩
    · simp [parseLoop, parseStep, ht]
    · simp [stackDepth, hd, scanStep_number ht]
  | group o c e ho hc _ ih =>
    intro ops output d _ hd
    obtain ⟨output1, hrun, hdepth⟩ := parseLoop_group o c e ho hc ih ops output d hd
    exact ⟨[], output1, by simpa using hrun, by simp, by simpa using hdepth⟩
  | thenNumber e op t hop ht _ ih =>
    intro ops output d hb hd
    obtain ⟨inner, output1, hrun, hinner, hdepth⟩ := ih ops output d hb hd
    obtain ⟨rest, output2, hstep, hrest, hdepth2⟩ :=
      parseStep_operator op hop inner hinner ops hb output1 d hdepth
    refine ⟨op :: rest, t :: output2, ?_, ?_, ?_⟩
    · rw [parseLoop_append, hrun]
      simp only [Outcome.bind_returned, parseLoop, hstep]
      simp [parseStep, ht]
    · intro u hu
      rcases List.mem_cons.mp hu with h | h
      · rw [h]; exact hop
      · exact hrest u h
    · simp [stackDepth, hdepth2, scanStep_number ht]
      omega
  | thenGroup e f op o c hop ho hc _ _ ihe ihf =>
    intro ops output d hb hd
    obtain ⟨inner, output1, hrun, hinner, hdepth⟩ := ihe ops output d hb hd
    obtain ⟨rest, output2, hstep, hrest, hdepth2⟩ :=
      parseStep_operator op hop inner hinner ops hb output1 d hdepth
    obtain ⟨output3, hgroup, hdepth3⟩ :=
      parseLoop_group o c f ho hc ihf (op :: rest ++ ops) output2 _ hdepth2
    refine ⟨op :: rest, output3, ?_, ?_, ?_⟩
    · rw [parseLoop_append, hrun]
      simp only [Outcome.bind_returned, parseLoop, hstep]
      exact hgroup
    · intro u hu
      rcases List.mem_cons.mp hu with h | h
      · rw [h]; exact hop
      · exact hrest u h
    · rw [hdepth3]; simp; omega

/-- Appending an operator and a flat expression to a flat expression gives a flat
expression. -/
theorem Flat.append_binary {r : List Token} (hr : Flat r) :
    ∀ (l : List Token) (op : Token), Flat l → op.isBinary → Flat (l ++ op :: r) := by
  induction hr with
  | number t ht =>
    intro l op hl hop
    exact Flat.thenNumber l op t hop ht hl
  | group o c e ho hc he _ =>
    intro l op hl hop
    exact Flat.thenGroup l e op o c hop ho hc hl he
  | thenNumber e op1 t hop1 ht _ ih =>
    intro l op hl hop
    have := Flat.thenNumber (l ++ op :: e) op1 t hop1 ht (ih l op hl hop)
    simpa [List.append_assoc] using this
  | thenGroup e f op1 o c hop1 ho hc _ hf ihe _ =>
    intro l op hl hop
    have := Flat.thenGroup (l ++ op :: e) f op1 o c hop1 ho hc (ihe l op hl hop) hf
    simpa [List.append_assoc] using this

theorem WellFormed.flat {e : List Token} (h : WellFormed e) : Flat e := by
  induction h with
  | number t ht => exact Flat.number t ht
  | group o c e ho hc _ ih => exact Flat.group o c e ho hc ih
  | binary l r op hop _ _ ihl ihr => exact ihr.append_binary l op ihl hop

/-- On a well-formed infix expression `parse` returns, with `ErrorKind::None`, the
output stack `drain inner output` whose scan leaves exactly one value. -/
theorem parse_wellFormed (toks : List Token) (h : WellFormed toks) :
    ∃ out, parse toks = .returned (out, ErrorKind.None) ∧
      scanRpn (bottomToTop out) 0 = some 1 := by
  obtain ⟨inner, output1, hrun, hinner, hdepth⟩ :=
    parseLoop_flat toks h.flat [] [] 0 (by intro t ht; simp at ht) rfl
  refine ⟨drain inner output1, ?_, ?_⟩
  · simp [parse, hrun]
  · rw [scanRpn_bottomToTop, drain_eq]
    apply stackDepth_push_operators inner hinner
    simpa using hdepth

/-! ## Lemmas on the tokenizer -/

theorem digitChar_spec : ∀ k < 10, isdigit (Nat.digitChar k) = true ∧
    (Nat.digitChar k).toNat - 48 = k := by
  decide

theorem digitsValue_append (xs ys : List Char) (acc : Nat) :
    digitsValue acc (xs ++ ys) = digitsValue (digitsValue acc xs) ys := by
  simp [digitsValue, List.foldl_append]

theorem digitsValue_singleton (c : Char) (acc : Nat) :
    digitsValue acc [c] = 10 * acc + (c.toNat - 48) := by
  simp [digitsValue]

/-- The digits `Nat.toDigitsCore` puts before its accumulator: a non-empty run of
decimal digits whose value is the number. -/
theorem toDigitsCore_spec : ∀ (fuel n : Nat) (ds : List Char), n < fuel →
    ∃ run, Nat.toDigitsCore 10 fuel n ds = run ++ ds ∧ run ≠ [] ∧
      (∀ c ∈ run, isdigit c = true) ∧ ∀ acc, digitsValue acc run = acc * 10 ^ run.length + n := by
  intro fuel
  induction fuel with
  | zero => intro n ds h; omega
  | succ fuel ih =>
    intro n ds h
    have hd := digitChar_spec (n % 10) (Nat.mod_lt _ (by decide))
    rw [Nat.toDigitsCore]
    by_cases h0 : n / 10 = 0
    · refine ⟨[Nat.digitChar (n % 10)], by simp [h0], by simp, by simpa using hd.1, ?_⟩
      intro acc
      rw [digitsValue_singleton, hd.2, List.length_singleton, pow_one]
      omega
    · have hlt : n / 10 < fuel := by omega
      obtain ⟨run, hrun, _, hall, hval⟩ := ih (n / 10) (Nat.digitChar (n % 10) :: ds) hlt
      refine ⟨run ++ [Nat.digitChar (n % 10)], by simp [h0, hrun], by simp, ?_, ?_⟩
      · intro c hc
        rcases List.mem_append.mp hc with h1 | h1
        · exact hall c h1
        · simp at h1; rw [h1]; exact hd.1
      · intro acc
        rw [digitsValue_append, hval, digitsValue_singleton, hd.2, List.length_append,
          List.length_singleton, pow_succ]
        have := Nat.div_add_mod n 10
        nlinarith [this]

theorem toDigits_spec (n : Nat) :
    Nat.toDigits 10 n ≠ [] ∧ (∀ c ∈ Nat.toDigits 10 n, isdigit c = true) ∧
      digitsValue 0 (Nat.toDigits 10 n) = n := by
  obtain ⟨run, hrun, hne, hall, hval⟩ := toDigitsCore_spec (n + 1) n [] (Nat.lt_succ_self n)
  have h : Nat.toDigits 10 n = run := by simpa [Nat.toDigits] using hrun
  rw [h]
  exact ⟨hne, hall, by simpa using hval 0⟩

theorem isdigit_ne_of_lt {c : Char} (h : isdigit c = true) (d : Char) (hd : d.toNat < 48) :
    c ≠ d := by
  intro heq
  subst heq
  simp [isdigit] at h
  omega

theorem isdigit_not_isspace {c : Char} (h : isdigit c = true) : isspace c = false := by
  have h1 := isdigit_ne_of_lt h ' ' (by decide)
  have h2 := isdigit_ne_of_lt h '\t' (by decide)
  have h3 := isdigit_ne_of_lt h '\n' (by decide)
  have h4 := isdigit_ne_of_lt h '\x0b' (by decide)
  have h5 := isdigit_ne_of_lt h '\x0c' (by decide)
  have h6 := isdigit_ne_of_lt h '\r' (by decide)
  simp [isspace, h1, h2, h3, h4, h5, h6]

theorem takeWhile_isdigit_self (run : List Char) (h : ∀ c ∈ run, isdigit c = true) :
    run.takeWhile isdigit = run := by
  rw [List.takeWhile_eq_self_iff]
  exact h

/-- The conversion `std::stoll` of a non-empty run of digits that fits. -/
theorem stoll_digits (run : List Char) (hne : run ≠ []) (hall : ∀ c ∈ run, isdigit c = true)
    (hfit : (digitsValue 0 run : Int) ≤ I64_MAX) :
    stoll run = .value (digitsValue 0 run) := by
  obtain ⟨c, cs, rfl⟩ := List.exists_cons_of_ne_nil hne
  have hc : isdigit c = true := hall c (List.mem_cons_self _ _)
  have hm : c ≠ '-' := isdigit_ne_of_lt hc '-' (by decide)
  have hp : c ≠ '+' := isdigit_ne_of_lt hc '+' (by decide)
  have hdrop : (c :: cs).dropWhile isspace = c :: cs := by
    simp [List.dropWhile, isdigit_not_isspace hc]
  have hlow : I64_MIN ≤ (digitsValue 0 (c :: cs) : Int) := by
    have : (0 : Int) ≤ (digitsValue 0 (c :: cs) : Int) := Int.natCast_nonneg _
    unfold I64_MIN; omega
  rw [stoll, hdrop]
  simp only [stollSigned, List.head?_cons, Option.some.injEq, hm, hp, or_self, if_false,
    takeWhile_isdigit_self (c :: cs) hall]
  simp [hlow, hfit]

/-- The conversion `std::stoll` of a `-` followed by a non-empty run of digits that
fits. -/
theorem stoll_minus_digits (run : List Char) (hne : run ≠ [])
    (hall : ∀ c ∈ run, isdigit c = true) (hfit : I64_MIN ≤ -(digitsValue 0 run : Int)) :
    stoll ('-' :: run) = .value (-(digitsValue 0 run : Int)) := by
  have hdrop : ('-' :: run).dropWhile isspace = '-' :: run := by
    simp [List.dropWhile, isspace]
  have hhigh : -(digitsValue 0 run : Int) ≤ I64_MAX := by
    have : (0 : Int) ≤ (digitsValue 0 run : Int) := Int.natCast_nonneg _
    unfold I64_MAX; omega
  have htake : run.takeWhile isdigit ≠ [] := by
    rw [takeWhile_isdigit_self run hall]; exact hne
  rw [stoll, hdrop]
  simp only [stollSigned, List.head?_cons, true_or, if_true, List.tail_cons]
  rw [if_neg htake, takeWhile_isdigit_self run hall]
  simp [hfit, hhigh]

/-- The conversion `std::stoll` reads the decimal text of a 64-bit integer back. -/
theorem stoll_decimalText (v : Int) (hlow : I64_MIN ≤ v) (hhigh : v ≤ I64_MAX) :
    stoll (decimalText v) = .value v := by
  obtain ⟨hne, hall, hval⟩ := toDigits_spec v.natAbs
  unfold decimalText
  by_cases hv : v < 0
  · have hv1 : -(digitsValue 0 (Nat.toDigits 10 v.natAbs) : Int) = v := by
      rw [hval]; omega
    rw [if_pos hv, stoll_minus_digits _ hne hall (by rw [hv1]; exact hlow), hv1]
  · have hv1 : (digitsValue 0 (Nat.toDigits 10 v.natAbs) : Int) = v := by
      rw [hval]; omega
    rw [if_neg hv, stoll_digits _ hne hall (by rw [hv1]; exact hhigh), hv1]

/-- The classification loop body on the text of a form builds the token of the
form. -/
theorem classify_text (l : Lexeme) (hl : l.fits) : classify l.text = .returned [l.token] := by
  cases l with
  | number v =>
    obtain ⟨hlow, hhigh⟩ := hl
    simp [classify, parse_int, Lexeme.text, Lexeme.token, stoll_decimalText v hlow hhigh]
  | plus => decide
  | subtract => decide
  | multiply => decide
  | divide => decide
  | openParenthesis => decide
  | closeParenthesis => decide

theorem decimalText_no_space (v : Int) : decimalText v ≠ [] ∧ ∀ c ∈ decimalText v, c ≠ ' ' := by
  obtain ⟨hne, hall, _⟩ := toDigits_spec v.natAbs
  have hd : ∀ c ∈ Nat.toDigits 10 v.natAbs, c ≠ ' ' := fun c hc =>
    isdigit_ne_of_lt (hall c hc) ' ' (by decide)
  unfold decimalText
  split
  · refine ⟨by simp, ?_⟩
    intro c hc
    rcases List.mem_cons.mp hc with h | h
    · rw [h]; decide
    · exact hd c h
  · exact ⟨hne, hd⟩

theorem text_no_space (l : Lexeme) : l.text ≠ [] ∧ ∀ c ∈ l.text, c ≠ ' ' := by
  cases l with
  | number v => exact decimalText_no_space v
  | plus => decide
  | subtract => decide
  | multiply => decide
  | divide => decide
  | openParenthesis => decide
  | closeParenthesis => decide

/-- The splitting loop reads a run of characters other than the space into the
current piece. -/
theorem splitLoop_word (w : List Char) (hw : ∀ c ∈ w, c ≠ ' ') :
    ∀ (rest cur : List Char), splitLoop (w ++ rest) cur = splitLoop rest (cur ++ w) := by
  induction w with
  | nil => intro rest cur; simp
  | cons c cs ih =>
    intro rest cur
    have hc : c ≠ ' ' := hw c (List.mem_cons_self _ _)
    have hcs : ∀ d ∈ cs, d ≠ ' ' := fun d hd => hw d (List.mem_cons_of_mem _ hd)
    rw [List.cons_append, splitLoop, if_neg hc, ih hcs]
    simp

/-- The splitting loop skips a run of spaces met with no piece under way. -/
theorem splitLoop_spaces (k : Nat) (rest : List Char) :
    splitLoop (spaces k ++ rest) [] = splitLoop rest [] := by
  induction k with
  | zero => simp [spaces]
  | succ k ih =>
    have : spaces (k + 1) = ' ' :: spaces k := by simp [spaces, List.replicate_succ]
    rw [this, List.cons_append, splitLoop]
    simpa using ih

/-- A space met with a piece under way ends the piece. -/
theorem splitLoop_space_after (w rest : List Char) (hw : w ≠ []) :
    splitLoop (' ' :: rest) w = w :: splitLoop rest [] := by
  rw [splitLoop]
  simp [hw]

theorem splitLoop_end (w : List Char) (hw : w ≠ []) : splitLoop [] w = [w] := by
  simp [splitLoop, hw]

/-- The pieces of a line rendered by `renderSpaced`, after any leading spaces, are
the texts of the forms. -/
theorem splitLoop_renderSpaced (items : List (Lexeme × Nat)) :
    ∀ lead, splitLoop (spaces lead ++ renderSpaced items) [] = items.map fun it => it.1.text := by
  induction items with
  | nil => intro lead; simpa [renderSpaced, splitLoop] using splitLoop_spaces lead []
  | cons it rest ih =>
    intro lead
    obtain ⟨l, k⟩ := it
    obtain ⟨hne, hns⟩ := text_no_space l
    rw [splitLoop_spaces]
    cases rest with
    | nil =>
      rw [renderSpaced, splitLoop_word l.text hns, List.nil_append]
      cases k with
      | zero => simp [spaces, splitLoop_end l.text hne]
      | succ k =>
        have : spaces (k + 1) = ' ' :: (spaces k ++ []) := by simp [spaces, List.replicate_succ]
        rw [this, splitLoop_space_after _ _ hne, splitLoop_spaces]
        simp [splitLoop]
    | cons it2 rest2 =>
      have hsp : spaces (k + 1) = ' ' :: spaces k := by simp [spaces, List.replicate_succ]
      have hr : renderSpaced ((l, k) :: it2 :: rest2)
          = l.text ++ spaces (k + 1) ++ renderSpaced (it2 :: rest2) := rfl
      rw [hr, List.append_assoc, splitLoop_word l.text hns, List.nil_append, hsp,
        List.cons_append, splitLoop_space_after _ _ hne, ih k]
      simp

/-- A non-empty run of space characters is `spaces (k + 1)`. -/
theorem spaceRun_eq (sep : List Char) (hne : sep ≠ []) (hall : ∀ c ∈ sep, c = ' ') :
    ∃ k, sep = ' ' :: spaces k := by
  obtain ⟨c, cs, rfl⟩ := List.exists_cons_of_ne_nil hne
  refine ⟨cs.length, ?_⟩
  have hc : c = ' ' := hall c (List.mem_cons_self _ _)
  have hcs : cs = List.replicate cs.length ' ' :=
    List.eq_replicate_iff.mpr ⟨rfl, fun d hd => hall d (List.mem_cons_of_mem _ hd)⟩
  rw [hc, spaces, ← hcs]

/-- The pieces of a line rendered by `renderSeparated` with runs of spaces as
separators, met with a piece under way. -/
theorem splitLoop_renderSeparated (rest : List (List Char × Lexeme))
    (hsep : ∀ p ∈ rest, p.1 ≠ [] ∧ ∀ c ∈ p.1, c = ' ') :
    ∀ w, w ≠ [] → splitLoop (renderSeparated rest) w = w :: rest.map fun p => p.2.text := by
  induction rest with
  | nil => intro w hw; simp [renderSeparated, splitLoop_end w hw]
  | cons p ps ih =>
    intro w hw
    obtain ⟨sep, l⟩ := p
    obtain ⟨hne, hns⟩ := text_no_space l
    obtain ⟨hs1, hs2⟩ := hsep (sep, l) (List.mem_cons_self _ _)
    obtain ⟨k, hk⟩ := spaceRun_eq sep hs1 hs2
    have hps : ∀ q ∈ ps, q.1 ≠ [] ∧ ∀ c ∈ q.1, c = ' ' :=
      fun q hq => hsep q (List.mem_cons_of_mem _ hq)
    rw [renderSeparated, hk, List.append_assoc, List.cons_append,
      splitLoop_space_after _ _ hw, splitLoop_spaces,
      splitLoop_word l.text hns, List.nil_append, ih hps l.text hne]
    simp

/-- The classification loop on the texts of forms that fit builds their tokens. -/
theorem classifyAll_texts (ls : List Lexeme) (hfit : ∀ l ∈ ls, l.fits) :
    classifyAll (ls.map Lexeme.text) = .returned (ls.map Lexeme.token) := by
  induction ls with
  | nil => rfl
  | cons l ls ih =>
    have h1 := classify_text l (hfit l (List.mem_cons_self _ _))
    have h2 := ih fun m hm => hfit m (List.mem_cons_of_mem _ hm)
    simp [classifyAll, h1, h2]

/-- What `std::stoll` has read when it returns a value: leading white space, an
optional sign, then the longest run of digits, which is not empty. -/
theorem stoll_value_shape (s : List Char) (v : Int) (h : stoll s = .value v) :
    ∃ ws sign digits rest, s = ws ++ sign ++ digits ++ rest ∧
      (∀ c ∈ ws, isspace c = true) ∧ (sign = [] ∨ sign = ['-'] ∨ sign = ['+']) ∧
      digits ≠ [] ∧ (∀ c ∈ digits, isdigit c = true) ∧ (∀ c ∈ rest.head?, isdigit c = false) ∧
      v = if sign = ['-'] then -(digitsValue 0 digits : Int) else (digitsValue 0 digits : Int) := by
  have hsplit : s = s.takeWhile isspace ++ s.dropWhile isspace :=
    (List.takeWhile_append_dropWhile isspace s).symm
  have hws : ∀ c ∈ s.takeWhile isspace, isspace c = true := fun c hc => List.mem_takeWhile_imp hc
  have key : ∀ (sign body : List Char), s.dropWhile isspace = sign ++ body →
      (sign = [] ∨ sign = ['-'] ∨ sign = ['+']) →
      body.takeWhile isdigit ≠ [] →
      v = (if sign = ['-'] then -(digitsValue 0 (body.takeWhile isdigit) : Int)
        else (digitsValue 0 (body.takeWhile isdigit) : Int)) →
      ∃ ws sign digits rest, s = ws ++ sign ++ digits ++ rest ∧
        (∀ c ∈ ws, isspace c = true) ∧ (sign = [] ∨ sign = ['-'] ∨ sign = ['+']) ∧
        digits ≠ [] ∧ (∀ c ∈ digits, isdigit c = true) ∧
        (∀ c ∈ rest.head?, isdigit c = false) ∧
        v = if sign = ['-'] then -(digitsValue 0 digits : Int)
          else (digitsValue 0 digits : Int) := by
    intro sign body hbody hsign hne hv
    refine ⟨s.takeWhile isspace, sign, body.takeWhile isdigit, body.dropWhile isdigit, ?_, hws,
      hsign, hne, fun c hc => List.mem_takeWhile_imp hc, ?_, hv⟩
    · rw [List.append_assoc, List.append_assoc, List.takeWhile_append_dropWhile, ← hbody]
      exact hsplit
    · intro c hc
      cases hd : body.dropWhile isdigit with
      | nil => rw [hd] at hc; simp at hc
      | cons x xs =>
        rw [hd] at hc
        simp at hc
        have := List.head_dropWhile_not isdigit body (by rw [hd]; simp)
        simp only [hd, List.head_cons] at this
        rw [← hc]
        simpa using this
  unfold stoll stollSigned at h
  cases hs : s.dropWhile isspace with
  | nil => rw [hs] at h; simp at h
  | cons x xs =>
    rw [hs] at h
    simp only [List.head?_cons, Option.some.injEq, List.tail_cons] at h
    by_cases hm : x = '-'
    · subst hm
      simp only [true_or, if_true] at h
      split at h
      · cases h
      · rename_i hne
        split at h
        · injection h with h
          exact key ['-'] xs (by simpa using hs) (by simp) hne (by simp [← h])
        · cases h
    · by_cases hp : x = '+'
      · subst hp
        simp only [or_true, if_true, hm, if_false] at h
        split at h
        · cases h
        · rename_i hne
          split at h
          · injection h with h
            exact key ['+'] xs (by simpa using hs) (by simp) hne (by simp [← h])
          · cases h
      · simp only [hm, hp, or_self, if_false] at h
        split at h
        · cases h
        · rename_i hne
          split at h
          · injection h with h
            exact key [] (x :: xs) (by simpa using hs) (by simp) hne (by simp [← h])
          · cases h

/-- The tokens the classification loop body appends: a `Number` token exactly in
the case where `std::stoll` returns a value, which is the value of the
token. -/
theorem classify_number_value (piece : List Char) (ts : List Token) (t : Token)
    (hret : classify piece = .returned ts) (ht : t ∈ ts) (hnum : t.m_type = TokenType.Number) :
    ∃ v, stoll piece = .value v ∧ t.m_value = some v := by
  unfold classify parse_int at hret
  cases hs : stoll piece with
  | value v =>
    rw [hs] at hret
    simp at hret
    subst hret
    simp at ht
    exact ⟨v, rfl, by rw [ht]; rfl⟩
  | outOfRange => rw [hs] at hret; simp [Outcome.bind] at hret
  | invalidArgument =>
    rw [hs] at hret
    simp only [Outcome.bind_returned, ne_eq, not_true_eq_false, if_false] at hret
    exfalso
    repeat
      first
        | (split at hret
           · injection hret with hret
             subst hret
             simp at ht
             rw [ht] at hnum
             cases hnum)
        | (injection hret with hret
           subst hret
           simp at ht)

theorem Outcome.bind_returned_self {α : Type} (x : Outcome α) :
    (x.bind fun a => Outcome.returned a) = x := by
  cases x <;> rfl

/-- The classification loop over two runs of pieces, one after the other. -/
theorem classifyAll_append (a b : List (List Char)) :
    classifyAll (a ++ b) =
      (classifyAll a).bind fun ta => (classifyAll b).bind fun tb => .returned (ta ++ tb) := by
  induction a with
  | nil => simp [classifyAll, Outcome.bind_returned_self]
  | cons p ps ih =>
    rw [List.cons_append, classifyAll, classifyAll, ih]
    simp only [Outcome.bind_assoc, Outcome.bind_returned, List.append_assoc]

/-- A space ends whatever piece is under way, so the splitting loop treats what
follows the space on its own. -/
theorem splitLoop_space_end (q rest : List Char) :
    ∀ cur, splitLoop (q ++ ' ' :: rest) cur = splitLoop (q ++ [' ']) cur ++ splitLoop rest [] := by
  induction q with
  | nil =>
    intro cur
    by_cases hc : cur = [] <;> simp [splitLoop, hc]
  | cons c cs ih =>
    intro cur
    by_cases hsp : c = ' '
    · by_cases hc : cur = [] <;> simp [splitLoop, hsp, hc, ih]
    · simp [splitLoop, hsp, ih]

/-- A piece that `parse_int` rejects and that is none of the six literals appends no
token. -/
theorem classify_rejected (piece : List Char)
    (hrej : ∃ v, parse_int piece = .returned (v, ErrorKind.ParseIntError))
    (hlit : piece ∉ literalPieces) : classify piece = .returned [] := by
  obtain ⟨v, hv⟩ := hrej
  simp only [literalPieces, List.mem_cons, List.mem_singleton, not_or, List.not_mem_nil,
    or_false] at hlit
  obtain ⟨h1, h2, h3, h4, h5, h6⟩ := hlit
  simp [classify, hv, h1, h2, h3, h4, h5, h6]

/-! ## Lemmas on parentheses and the operator stack -/

theorem Token.isBinary.flags {t : Token} (h : t.isBinary) :
    isOpen t = false ∧ isClose t = false ∧ isNumber t = false := by
  simp [isOpen, isClose, isNumber, h.not_open, h.not_close, h.not_number]

theorem opens_binary (l : List Token) (h : ∀ t ∈ l, t.isBinary) : opens l = 0 := by
  rw [opens, List.countP_eq_zero]
  intro t ht
  simp [(h t ht).flags.1]

theorem nonParen_binary (l : List Token) (h : ∀ t ∈ l, t.isBinary) : nonParen l = l := by
  rw [nonParen, List.filter_eq_self]
  intro t ht
  simp [(h t ht).flags.1, (h t ht).flags.2.1]

theorem numbers_binary (l : List Token) (h : ∀ t ∈ l, t.isBinary) : numbers l = [] := by
  rw [numbers, List.filter_eq_nil_iff]
  intro t ht
  simp [(h t ht).flags.2.2]

theorem opens_append (a b : List Token) : opens (a ++ b) = opens a + opens b := by
  simp [opens, List.countP_append]

theorem closes_append (a b : List Token) : closes (a ++ b) = closes a + closes b := by
  simp [closes, List.countP_append]

theorem nonParen_append (a b : List Token) : nonParen (a ++ b) = nonParen a ++ nonParen b := by
  simp [nonParen, List.filter_append]

theorem numbers_append (a b : List Token) : numbers (a ++ b) = numbers a ++ numbers b := by
  simp [numbers, List.filter_append]

/-- An operator stack splits at its first `OpenParenthesis`: binary operators above, and
below them a stack that is empty or has an `OpenParenthesis` on top. -/
theorem stack_split_at_open (ops : List Token) (h : ∀ t ∈ ops, t.isStackable) :
    ∃ inner rest, ops = inner ++ rest ∧ (∀ t ∈ inner, t.isBinary) ∧ AtGroupStart rest := by
  induction ops with
  | nil => exact ⟨[], [], rfl, by simp, by intro t ht; simp at ht⟩
  | cons t ts ih =>
    rcases h t (List.mem_cons_self _ _) with ht | ht
    · refine ⟨[], t :: ts, rfl, by simp, ?_⟩
      intro u hu
      simp at hu
      rw [← hu]; exact ht
    · obtain ⟨inner, rest, hsplit, hinner, hrest⟩ :=
        ih fun u hu => h u (List.mem_cons_of_mem _ hu)
      refine ⟨t :: inner, rest, by simp [hsplit], ?_, hrest⟩
      intro u hu
      rcases List.mem_cons.mp hu with h1 | h1
      · rw [h1]; exact ht
      · exact hinner u h1

/-- The operator loop on any operator stack of `parse`: it returns, having moved
binary operators from the top of the stack to the output. -/
theorem operatorLoop_stackable (op : Token) (hop : op.isBinary) (ops : List Token)
    (h : ∀ t ∈ ops, t.isStackable) (output : List Token) :
    ∃ moved rest, ops = moved ++ rest ∧ (∀ t ∈ moved, t.isBinary) ∧
      operatorLoop op ops output = .returned (rest, moved.reverse ++ output) := by
  obtain ⟨inner, base, hsplit, hinner, hbase⟩ := stack_split_at_open ops h
  obtain ⟨moved, rest, hm, hrun⟩ := operatorLoop_level op hop inner hinner base hbase output
  refine ⟨moved, rest ++ base, by rw [hsplit, hm, List.append_assoc], ?_, by rw [hsplit, hrun]⟩
  intro t ht
  exact hinner t (by simp [hm, ht])

/-- The `CloseParenthesis` loop on an operator stack that holds an `OpenParenthesis`: it
returns, having moved the binary operators above the first `OpenParenthesis` to
the output and dropped that `OpenParenthesis`. -/
theorem closeLoop_stackable (ops : List Token) (h : ∀ t ∈ ops, t.isStackable)
    (hopen : 1 ≤ opens ops) (output : List Token) :
    ∃ moved o rest, ops = moved ++ o :: rest ∧ (∀ t ∈ moved, t.isBinary) ∧
      o.m_type = TokenType.OpenParenthesis ∧
      closeLoop ops output = .returned (rest, moved.reverse ++ output) := by
  obtain ⟨inner, base, hsplit, hinner, hbase⟩ := stack_split_at_open ops h
  have h0 : opens base = opens ops := by
    rw [hsplit, opens_append, opens_binary inner hinner, Nat.zero_add]
  cases base with
  | nil =>
    rw [← h0] at hopen
    simp [opens] at hopen
  | cons o rest =>
    have ho : o.m_type = TokenType.OpenParenthesis := hbase o (by simp)
    exact ⟨inner, o, rest, hsplit, hinner, ho, by rw [hsplit, closeLoop_group inner hinner o ho]⟩

/-- A token that is not a number nor a parenthesis is one of the four operators. -/
theorem Token.isOperator_of_not {t : Token} (hn : t.m_type ≠ TokenType.Number)
    (ho : t.m_type ≠ TokenType.OpenParenthesis) (hc : t.m_type ≠ TokenType.CloseParenthesis) :
    t.isOperator := by
  unfold Token.isOperator
  cases h : t.m_type <;> simp_all

/-- One iteration of the loop of `parse` from an operator stack of `OpenParenthesis`
and binary operator tokens, which holds an `OpenParenthesis` when the token is a
`CloseParenthesis`: the iteration returns, with the effect of the token. -/
theorem parseStep_effect (t : Token) (ht : t.isBuilt) (ops output : List Token)
    (hops : ∀ u ∈ ops, u.isStackable)
    (hclose : t.m_type = TokenType.CloseParenthesis → 1 ≤ opens ops) :
    ∃ st1, parseStep t (ops, output) = .returned st1 ∧ Effect [t] (ops, output) st1 := by
  by_cases hn : t.m_type = TokenType.Number
  · refine ⟨(ops, t :: output), by simp [parseStep, hn], hops, ?_, ?_, ?_, ?_⟩
    · simp [opens, closes, isOpen, isClose, hn]
    · simp [nonParen, isOpen, isClose, hn]
    · simp [numbers, isNumber, hn]
    · intro h u hu
      rcases List.mem_cons.mp hu with h1 | h1
      · rw [h1]; simp [isOpen, isClose, hn]
      · exact h u h1
  by_cases ho : t.m_type = TokenType.OpenParenthesis
  · refine ⟨(t :: ops, output), by simp [parseStep, ho], ?_, ?_, ?_, ?_, ?_⟩
    · intro u hu
      rcases List.mem_cons.mp hu with h1 | h1
      · rw [h1]; exact Or.inl ho
      · exact hops u h1
    · simp [opens, closes, isOpen, isClose, ho]
    · simp [nonParen, isOpen, isClose, ho]
    · simp [numbers, isNumber, ho]
    · intro h; exact h
  by_cases hc : t.m_type = TokenType.CloseParenthesis
  · obtain ⟨moved, o, rest, hsplit, hmoved, hopen, hrun⟩ :=
      closeLoop_stackable ops hops (hclose hc) output
    have hoflag : isOpen o = true := by simp [isOpen, hopen]
    have hnp : nonParen (o :: rest) = nonParen rest := by simp [nonParen, hoflag]
    have hnt : nonParen [t] = [] := by simp [nonParen, isClose, hc]
    have hnum : numbers [t] = [] := by simp [numbers, isNumber, hc]
    have hnm : numbers moved.reverse = [] := numbers_binary _ (by simpa using hmoved)
    have hopt : opens [t] = 0 := by simp [opens, isOpen, hc]
    have hclt : closes [t] = 1 := by simp [closes, isClose, hc]
    have hopo : opens (o :: rest) = opens rest + 1 := by simp [opens, hoflag]
    refine ⟨(rest, moved.reverse ++ output), by simp [parseStep, hc, hrun], ?_, ?_, ?_, ?_, ?_⟩
    · intro u hu
      exact hops u (by simp [hsplit, hu])
    · show opens rest + closes [t] = opens ops + opens [t]
      rw [hsplit, opens_append, opens_binary moved hmoved, hopt, hclt, hopo]
      omega
    · show List.Perm ((moved.reverse ++ output) ++ nonParen rest)
        (nonParen [t] ++ (output ++ nonParen ops))
      rw [hsplit, nonParen_append, nonParen_binary moved hmoved, hnp, hnt, List.perm_iff_count]
      intro x
      simp [List.count_append]
      omega
    · show numbers (moved.reverse ++ output) = (numbers [t]).reverse ++ numbers output
      rw [numbers_append, hnm, hnum]
      rfl
    · intro h u hu
      rcases List.mem_append.mp hu with h1 | h1
      · have := (hmoved u (by simpa using h1)).flags
        exact ⟨this.1, this.2.1⟩
      · exact h u h1
  · have hop : t.isBinary := ht (Token.isOperator_of_not hn ho hc)
    obtain ⟨moved, rest, hsplit, hmoved, hrun⟩ := operatorLoop_stackable t hop ops hops output
    have hflag := hop.flags
    have hnp : nonParen (t :: rest) = t :: nonParen rest := by
      simp [nonParen, hflag.1, hflag.2.1]
    have hnt : nonParen [t] = [t] := by simp [nonParen, hflag.1, hflag.2.1]
    have hnum : numbers [t] = [] := by simp [numbers, hflag.2.2]
    have hnm : numbers moved.reverse = [] := numbers_binary _ (by simpa using hmoved)
    have hopt : opens [t] = 0 := by simp [opens, hflag.1]
    have hclt : closes [t] = 0 := by simp [closes, hflag.2.1]
    have hopo : opens (t :: rest) = opens rest := by simp [opens, hflag.1]
    refine ⟨(t :: rest, moved.reverse ++ output), by simp [parseStep, hn, ho, hc, hrun],
      ?_, ?_, ?_, ?_, ?_⟩
    · intro u hu
      rcases List.mem_cons.mp hu with h1 | h1
      · rw [h1]; exact Or.inr hop
      · exact hops u (by simp [hsplit, h1])
    · show opens (t :: rest) + closes [t] = opens ops + opens [t]
      rw [hsplit, opens_append, opens_binary moved hmoved, hopt, hclt, hopo]
      omega
    · show List.Perm ((moved.reverse ++ output) ++ nonParen (t :: rest))
        (nonParen [t] ++ (output ++ nonParen ops))
      rw [hsplit, nonParen_append, nonParen_binary moved hmoved, hnp, hnt, List.perm_iff_count]
      intro x
      simp [List.count_append, List.count_cons]
      omega
    · show numbers (moved.reverse ++ output) = (numbers [t]).reverse ++ numbers output
      rw [numbers_append, hnm, hnum]
      rfl
    · intro h u hu
      rcases List.mem_append.mp hu with h1 | h1
      · have := (hmoved u (by simpa using h1)).flags
        exact ⟨this.1, this.2.1⟩
      · exact h u h1

theorem Effect.nil (st : List Token × List Token) (h : ∀ t ∈ st.1, t.isStackable) :
    Effect [] st st := by
  refine ⟨h, by simp [opens, closes], ?_, by simp [numbers], fun h => h⟩
  simp [nonParen]

theorem Effect.cons {t : Token} {ts : List Token} {st st1 st2 : List Token × List Token}
    (h1 : Effect [t] st st1) (h2 : Effect ts st1 st2) : Effect (t :: ts) st st2 := by
  obtain ⟨_, b1, c1, d1, e1⟩ := h1
  obtain ⟨a2, b2, c2, d2, e2⟩ := h2
  have hcl : closes (t :: ts) = closes [t] + closes ts := closes_append [t] ts
  have hop : opens (t :: ts) = opens [t] + opens ts := opens_append [t] ts
  have hnp : nonParen (t :: ts) = nonParen [t] ++ nonParen ts := nonParen_append [t] ts
  have hnm : numbers (t :: ts) = numbers [t] ++ numbers ts := numbers_append [t] ts
  refine ⟨a2, by omega, ?_, ?_, fun h => e2 (e1 h)⟩
  · rw [hnp, List.perm_iff_count]
    intro x
    have k1 := List.perm_iff_count.mp c1 x
    have k2 := List.perm_iff_count.mp c2 x
    simp only [List.count_append] at k1 k2 ⊢
    omega
  · rw [d2, d1, hnm]
    simp

/-- The loop of `parse` from an operator stack of `OpenParenthesis` and binary operator
tokens, over tokens no initial segment of which closes more parentheses than
the stack and the segment open: the loop returns, with the effect of the
tokens. -/
theorem parseLoop_effect (ts : List Token) :
    ∀ st : List Token × List Token, (∀ u ∈ st.1, u.isStackable) → (∀ t ∈ ts, t.isBuilt) →
      (∀ pre, pre <+: ts → closes pre ≤ opens st.1 + opens pre) →
      ∃ st1, parseLoop ts st = .returned st1 ∧ Effect ts st st1 := by
  induction ts with
  | nil =>
    intro st hst _ _
    exact ⟨st, rfl, Effect.nil st hst⟩
  | cons t ts ih =>
    intro st hst hbuilt hpre
    obtain ⟨ops, output⟩ := st
    have hfirst : t.m_type = TokenType.CloseParenthesis → 1 ≤ opens ops := by
      intro hc
      have := hpre [t] (by simp [List.prefix_iff_eq_take])
      simpa [closes, opens, isClose, isOpen, hc] using this
    obtain ⟨st1, hstep, heff⟩ :=
      parseStep_effect t (hbuilt t (List.mem_cons_self _ _)) ops output hst hfirst
    have hrest : ∀ pre, pre <+: ts → closes pre ≤ opens st1.1 + opens pre := by
      intro pre hp
      have h1 := hpre (t :: pre) ((List.prefix_cons_inj t).mpr hp)
      have h2 : closes (t :: pre) = closes [t] + closes pre := closes_append [t] pre
      have h3 : opens (t :: pre) = opens [t] + opens pre := opens_append [t] pre
      have h4 := heff.2.1
      simp only at h1 h4
      omega
    obtain ⟨st2, hrun, heff2⟩ :=
      ih st1 heff.1 (fun u hu => hbuilt u (List.mem_cons_of_mem _ hu)) hrest
    exact ⟨st2, by simp [parseLoop, hstep, hrun], heff.cons heff2⟩

/-- The tokens of a sequence are its parentheses and its other tokens. -/
theorem nonParen_length (l : List Token) :
    (nonParen l).length + (opens l + closes l) = l.length := by
  induction l with
  | nil => rfl
  | cons t ts ih =>
    have h1 : opens (t :: ts) = opens [t] + opens ts := opens_append [t] ts
    have h2 : closes (t :: ts) = closes [t] + closes ts := closes_append [t] ts
    have h3 : nonParen (t :: ts) = nonParen [t] ++ nonParen ts := nonParen_append [t] ts
    rw [h1, h2, h3, List.length_append, List.length_cons, ← ih]
    by_cases ho : t.m_type = TokenType.OpenParenthesis
    · simp [opens, closes, nonParen, isOpen, isClose, ho]; omega
    · by_cases hc : t.m_type = TokenType.CloseParenthesis
      · simp [opens, closes, nonParen, isOpen, isClose, hc]; omega
      · simp [opens, closes, nonParen, isOpen, isClose, ho, hc]; omega

/-- What `parse` returns on tokens no initial segment of which has more
`CloseParenthesis` than `OpenParenthesis` tokens: the drained state of the loop,
with the effect of the tokens from the empty state. -/
theorem parse_prefixBalanced (toks : List Token) (hbuilt : ∀ t ∈ toks, t.isBuilt)
    (hpre : PrefixBalanced toks) :
    ∃ st1, parseLoop toks ([], []) = .returned st1 ∧ Effect toks ([], []) st1 ∧
      parse toks = .returned (st1.1.reverse ++ st1.2, ErrorKind.None) := by
  obtain ⟨st1, hrun, heff⟩ := parseLoop_effect toks ([], []) (by simp) hbuilt (by
    intro pre hp
    have := hpre pre ((List.mem_inits pre toks).mpr hp)
    simpa [opens] using this)
  exact ⟨st1, hrun, heff, by simp [parse, hrun, drain_eq]⟩

/-- An operator stack of `parse` with no `OpenParenthesis` holds binary operators
only. -/
theorem stack_binary_of_no_open (ops : List Token) (h : ∀ t ∈ ops, t.isStackable)
    (h0 : opens ops = 0) : ∀ t ∈ ops, t.isBinary := by
  intro t ht
  rcases h t ht with h1 | h1
  · exfalso
    rw [opens, List.countP_eq_zero] at h0
    exact h0 t ht (by simp [isOpen, h1])
  · exact h1

theorem PrefixBalanced.of_append {a b : List Token} (h : PrefixBalanced (a ++ b)) :
    PrefixBalanced a := by
  intro pre hp
  apply h pre
  rw [List.mem_inits] at hp ⊢
  exact hp.trans (List.prefix_append a b)

/-! ## Lemmas on tokens that agree on the fields their constructors set -/

theorem Outcome.Rel.bind {α β γ δ : Type} {R : α → β → Prop} {S : γ → δ → Prop}
    {x : Outcome α} {y : Outcome β} {f : α → Outcome γ} {g : β → Outcome δ}
    (h : Outcome.Rel R x y)
    (hfg : ∀ a b, x = .returned a → y = .returned b → R a b → Outcome.Rel S (f a) (g b)) :
    Outcome.Rel S (x.bind f) (y.bind g) := by
  cases x <;> cases y <;> simp_all [Outcome.Rel, Outcome.bind]

theorem Token.agree.isOperator {t u : Token} (h : t.agree u) (ht : t.isOperator) :
    u.isOperator := by
  unfold Token.isOperator at ht ⊢
  rw [← h.1]; exact ht

/-- The `CloseParenthesis` loop reads the types of the stacked tokens only. -/
theorem closeLoop_agree {ops1 ops2 : List Token} (hops : List.Forall₂ Token.agree ops1 ops2) :
    ∀ out1 out2, List.Forall₂ Token.agree out1 out2 →
      Outcome.Rel StateAgree (closeLoop ops1 out1) (closeLoop ops2 out2) := by
  induction hops with
  | nil => intro out1 out2 _; simp [closeLoop, Outcome.Rel]
  | cons hab hrest ih =>
    rename_i a b l1 l2
    intro out1 out2 hout
    by_cases ha : a.m_type = TokenType.OpenParenthesis
    · have hb : b.m_type = TokenType.OpenParenthesis := by rw [← hab.1]; exact ha
      simp only [closeLoop, ha, hb, ne_eq, not_true_eq_false, if_false]
      exact ⟨hrest, hout⟩
    · have hb : b.m_type ≠ TokenType.OpenParenthesis := by rw [← hab.1]; exact ha
      simp only [closeLoop, ne_eq, ha, hb, not_false_eq_true, if_true]
      exact ih _ _ (List.Forall₂.cons hab hout)

/-- The operator loop reads the types of the stacked tokens and, for operators, their
precedences. -/
theorem operatorLoop_agree {tok1 tok2 : Token} (htok : tok1.agree tok2) (hop : tok1.isOperator)
    {ops1 ops2 : List Token} (hops : List.Forall₂ Token.agree ops1 ops2) :
    (∀ t ∈ ops1, t.m_type = TokenType.OpenParenthesis ∨ t.isOperator) →
    ∀ out1 out2, List.Forall₂ Token.agree out1 out2 →
      Outcome.Rel StateAgree (operatorLoop tok1 ops1 out1) (operatorLoop tok2 ops2 out2) := by
  have hprec : tok1.m_precedence = tok2.m_precedence := htok.2.2 hop
  induction hops with
  | nil =>
    intro _ out1 out2 hout
    exact ⟨List.Forall₂.nil, hout⟩
  | cons hab hrest ih =>
    rename_i a b l1 l2
    intro hinv out1 out2 hout
    have hinv2 : ∀ t ∈ l1, t.m_type = TokenType.OpenParenthesis ∨ t.isOperator :=
      fun t ht => hinv t (List.mem_cons_of_mem _ ht)
    by_cases ha : a.m_type = TokenType.OpenParenthesis
    · have hb : b.m_type = TokenType.OpenParenthesis := by rw [← hab.1]; exact ha
      simp only [operatorLoop, ha, hb, ne_eq, not_true_eq_false, if_false]
      exact ⟨List.Forall₂.cons hab hrest, hout⟩
    · have hb : b.m_type ≠ TokenType.OpenParenthesis := by rw [← hab.1]; exact ha
      have haop : a.isOperator := (hinv a (List.mem_cons_self _ _)).resolve_left ha
      have hpa : a.m_precedence = b.m_precedence := hab.2.2 haop
      simp only [operatorLoop, ne_eq, ha, hb, not_false_eq_true, if_true, ← hprec, ← hpa]
      cases h1 : tok1.m_precedence with
      | none => simp [Outcome.Rel]
      | some p =>
        cases h2 : a.m_precedence with
        | none => simp [Outcome.Rel]
        | some q =>
          by_cases hlt : p < q
          · simp only [hlt, if_true]
            exact ih hinv2 _ _ (List.Forall₂.cons hab hout)
          · simp only [hlt, if_false]
            exact ⟨List.Forall₂.cons hab hrest, hout⟩

theorem closeLoop_subset : ∀ (ops out : List Token) (st : List Token × List Token),
    closeLoop ops out = .returned st → ∀ t ∈ st.1, t ∈ ops := by
  intro ops
  induction ops with
  | nil => intro out st h; simp [closeLoop] at h
  | cons a l ih =>
    intro out st h t ht
    by_cases ha : a.m_type = TokenType.OpenParenthesis
    · simp only [closeLoop, ha, ne_eq, not_true_eq_false, if_false] at h
      injection h with h
      subst h
      exact List.mem_cons_of_mem _ ht
    · simp only [closeLoop, ne_eq, ha, not_false_eq_true, if_true] at h
      exact List.mem_cons_of_mem _ (ih _ st h t ht)

theorem operatorLoop_subset (tok : Token) : ∀ (ops out : List Token)
    (st : List Token × List Token),
    operatorLoop tok ops out = .returned st → ∀ t ∈ st.1, t ∈ ops := by
  intro ops
  induction ops with
  | nil =>
    intro out st h t ht
    simp only [operatorLoop] at h
    injection h with h
    subst h
    exact ht
  | cons a l ih =>
    intro out st h t ht
    by_cases ha : a.m_type = TokenType.OpenParenthesis
    · simp only [operatorLoop, ha, ne_eq, not_true_eq_false, if_false] at h
      injection h with h
      subst h
      exact ht
    · simp only [operatorLoop, ne_eq, ha, not_false_eq_true, if_true] at h
      split at h
      · split at h
        · exact List.mem_cons_of_mem _ (ih _ st h t ht)
        · injection h with h
          subst h
          exact ht
      · cases h

/-- The operator stack of `parse` holds `OpenParenthesis` tokens and operator tokens
only, whatever the tokens are. -/
theorem parseStep_stack_types (t : Token) (st st1 : List Token × List Token)
    (h : parseStep t st = .returned st1)
    (hinv : ∀ u ∈ st.1, u.m_type = TokenType.OpenParenthesis ∨ u.isOperator) :
    ∀ u ∈ st1.1, u.m_type = TokenType.OpenParenthesis ∨ u.isOperator := by
  unfold parseStep at h
  split at h
  · injection h with h
    subst h
    exact hinv
  · split at h
    · rename_i ho
      injection h with h
      subst h
      intro u hu
      rcases List.mem_cons.mp hu with h1 | h1
      · rw [h1]; exact Or.inl ho
      · exact hinv u h1
    · split at h
      · intro u hu
        exact hinv u (closeLoop_subset _ _ _ h u hu)
      · rename_i hn ho hc
        cases hrun : operatorLoop t st.1 st.2 with
        | returned r =>
          rw [hrun] at h
          simp only [Outcome.bind_returned] at h
          injection h with h
          subst h
          intro u hu
          rcases List.mem_cons.mp hu with h1 | h1
          · rw [h1]; exact Or.inr (Token.isOperator_of_not hn ho hc)
          · exact hinv u (operatorLoop_subset t _ _ _ hrun u h1)
        | uncaughtOutOfRange => rw [hrun] at h; simp [Outcome.bind] at h
        | undefinedBehaviour => rw [hrun] at h; simp [Outcome.bind] at h

/-- One iteration of the loop of `parse` on agreeing tokens from agreeing states. -/
theorem parseStep_agree {t u : Token} (htu : t.agree u) {st1 st2 : List Token × List Token}
    (hst : StateAgree st1 st2)
    (hinv : ∀ v ∈ st1.1, v.m_type = TokenType.OpenParenthesis ∨ v.isOperator) :
    Outcome.Rel StateAgree (parseStep t st1) (parseStep u st2) := by
  unfold parseStep
  rw [← htu.1]
  by_cases hn : t.m_type = TokenType.Number
  · simp only [hn, if_true]
    exact ⟨hst.1, List.Forall₂.cons htu hst.2⟩
  by_cases ho : t.m_type = TokenType.OpenParenthesis
  · simp only [ho, if_true, if_false, reduceCtorEq]
    exact ⟨List.Forall₂.cons htu hst.1, hst.2⟩
  by_cases hc : t.m_type = TokenType.CloseParenthesis
  · simp only [hc, if_true, if_false, reduceCtorEq]
    exact closeLoop_agree hst.1 _ _ hst.2
  · simp only [hn, ho, hc, if_false]
    apply (operatorLoop_agree htu (Token.isOperator_of_not hn ho hc) hst.1 hinv _ _ hst.2).bind
    intro a b _ _ hab
    exact ⟨List.Forall₂.cons htu hab.1, hab.2⟩

/-- The loop of `parse` on agreeing token sequences from agreeing states. -/
theorem parseLoop_agree {xs ys : List Token} (h : List.Forall₂ Token.agree xs ys) :
    ∀ st1 st2 : List Token × List Token, StateAgree st1 st2 →
      (∀ v ∈ st1.1, v.m_type = TokenType.OpenParenthesis ∨ v.isOperator) →
      Outcome.Rel StateAgree (parseLoop xs st1) (parseLoop ys st2) := by
  induction h with
  | nil => intro st1 st2 hst _; exact hst
  | cons htu _ ih =>
    intro st1 st2 hst hinv
    simp only [parseLoop]
    apply (parseStep_agree htu hst hinv).bind
    intro a b ha _ hab
    exact ih a b hab (parseStep_stack_types _ st1 a ha hinv)

theorem drain_agree {ops1 ops2 : List Token} (hops : List.Forall₂ Token.agree ops1 ops2) :
    ∀ out1 out2, List.Forall₂ Token.agree out1 out2 →
      List.Forall₂ Token.agree (drain ops1 out1) (drain ops2 out2) := by
  induction hops with
  | nil => intro out1 out2 h; exact h
  | cons hab _ ih =>
    intro out1 out2 h
    exact ih _ _ (List.Forall₂.cons hab h)

/-! ## The claims -/

/-- C1 (evaluation of the failing inputs): `evaluate` does not compute the value of the
expression; on `"( 1 + 2 ) * 3"` and on `"10 / 3"`, whose values are 9 and 3, it
returns `-1`. -/
theorem evaluate_returns_minus_one_on_examples :
    evaluate "( 1 + 2 ) * 3" = .returned (-1) ∧ evaluate "10 / 3" = .returned (-1) := by
  decide

/-- C2 (evaluation of the failing input): for all values `a`, `b`, `c`, parsing
`[Number(a), Subtract, Number(b), Subtract, Number(c)]` returns the postfix
sequence `[a, b, c, -, -]`, the postfix of `a - (b - c)`, and not
`[a, b, -, c, -]`, the postfix of `(a - b) - c`. -/
theorem parse_subtract_chain_groups_right (a b c : Int) :
    ∃ out, parse [Token.withValue .Number a, Token.withPrecedence .Subtract 1,
        Token.withValue .Number b, Token.withPrecedence .Subtract 1,
        Token.withValue .Number c] = .returned (out, ErrorKind.None) ∧
      bottomToTop out = [Token.withValue .Number a, Token.withValue .Number b,
        Token.withValue .Number c, Token.withPrecedence .Subtract 1,
        Token.withPrecedence .Subtract 1] ∧
      bottomToTop out ≠ [Token.withValue .Number a, Token.withValue .Number b,
        Token.withPrecedence .Subtract 1, Token.withValue .Number c,
        Token.withPrecedence .Subtract 1] := by
  refine ⟨[Token.withPrecedence .Subtract 1, Token.withPrecedence .Subtract 1,
    Token.withValue .Number c, Token.withValue .Number b, Token.withValue .Number a],
    rfl, rfl, ?_⟩
  simp [bottomToTop, Token.withValue, Token.withPrecedence]

/-- C3: for every token sequence that is a well-formed infix expression, `parse`
returns with `ErrorKind::None` a sequence that is a valid postfix arrangement:
in the value-stack scan every operator finds two values, no parenthesis is met,
and exactly one value remains. -/
theorem parse_wellFormed_validRpn (toks : List Token) (h : WellFormed toks) :
    ∃ out, parse toks = .returned (out, ErrorKind.None) ∧ validRpn (bottomToTop out) :=
  parse_wellFormed toks h

/-- C3 at the tokens of `( 1 + 2 ) * 3`. -/
theorem parse_wellFormed_validRpn_witness :
    ∃ out, parse [Token.ofType .OpenParenthesis, Token.withValue .Number 1,
        Token.withPrecedence .Plus 1, Token.withValue .Number 2,
        Token.ofType .CloseParenthesis, Token.withPrecedence .Multiply 2,
        Token.withValue .Number 3] = .returned (out, ErrorKind.None) ∧
      validRpn (bottomToTop out) :=
  parse_wellFormed_validRpn _
    (WellFormed.binary
      [Token.ofType .OpenParenthesis, Token.withValue .Number 1, Token.withPrecedence .Plus 1,
        Token.withValue .Number 2, Token.ofType .CloseParenthesis]
      [Token.withValue .Number 3] (Token.withPrecedence .Multiply 2) (by decide)
      (WellFormed.group (Token.ofType .OpenParenthesis) (Token.ofType .CloseParenthesis)
        [Token.withValue .Number 1, Token.withPrecedence .Plus 1, Token.withValue .Number 2]
        rfl rfl
        (WellFormed.binary [Token.withValue .Number 1] [Token.withValue .Number 2]
          (Token.withPrecedence .Plus 1) (by decide)
          (WellFormed.number _ rfl) (WellFormed.number _ rfl)))
      (WellFormed.number _ rfl))

/-- C4 (evaluation of the failing input): on `[Number(1), CloseParenthesis]` the
`CloseParenthesis` loop calls `top()` on the empty operator stack, which is
undefined behaviour; `parse` does not return an error kind. -/
theorem parse_unmatched_close_is_undefined :
    parse [Token.withValue .Number 1, Token.ofType .CloseParenthesis] = .undefinedBehaviour := by
  decide

/-- C5 (evaluation of the failing input): on `[OpenParenthesis, Number(1)]`, `parse`
returns `ErrorKind::None` with the postfix sequence `[1, (]`, which holds the
`OpenParenthesis` token. -/
theorem parse_unclosed_open_returns_none :
    parse [Token.ofType .OpenParenthesis, Token.withValue .Number 1] =
        .returned ([Token.ofType .OpenParenthesis, Token.withValue .Number 1], ErrorKind.None) ∧
      bottomToTop [Token.ofType .OpenParenthesis, Token.withValue .Number 1] =
        [Token.withValue .Number 1, Token.ofType .OpenParenthesis] := by
  decide

/-- C6 (evaluation of the failing input): on `"4 / 0"` the tokens are
`[Number(4), Divide, Number(0)]`, their postfix sequence is `[4, 0, /]`, and
`evaluate` returns the integer `-1`; no error is raised. -/
theorem evaluate_division_by_zero_returns :
    tokenizer "4 / 0" = .returned [Token.withValue .Number 4, Token.withPrecedence .Divide 2,
        Token.withValue .Number 0] ∧
      parse [Token.withValue .Number 4, Token.withPrecedence .Divide 2,
        Token.withValue .Number 0] = .returned ([Token.withPrecedence .Divide 2,
          Token.withValue .Number 0, Token.withValue .Number 4], ErrorKind.None) ∧
      evaluate "4 / 0" = .returned (-1) := by
  decide

/-- C7: tokenizing undoes rendering.  For every list of forms whose numbers fit a
64-bit signed integer, the line made of `lead` spaces and the texts of the
forms, separated by one or more spaces and followed by any number of spaces,
is tokenized into exactly the tokens of the forms, in order, `Plus` and
`Subtract` with precedence 1, `Multiply` and `Divide` with precedence 2. -/
theorem tokenizer_renderSpaced (lead : Nat) (items : List (Lexeme × Nat))
    (hfit : ∀ it ∈ items, it.1.fits) :
    tokenizer (String.mk (spaces lead ++ renderSpaced items)) =
      .returned (items.map fun it => it.1.token) := by
  have h1 : splitLoop (spaces lead ++ renderSpaced items) [] =
      (items.map fun it => it.1).map Lexeme.text := by
    rw [splitLoop_renderSpaced]; simp
  have h2 : (items.map fun it => it.1.token) = (items.map fun it => it.1).map Lexeme.token := by
    simp
  show classifyAll (splitLoop (spaces lead ++ renderSpaced items) []) = _
  rw [h1, h2]
  apply classifyAll_texts
  intro l hl
  obtain ⟨it, hit, rfl⟩ := List.mem_map.mp hl
  exact hfit it hit

/-- C7 at the line `1 + 2`: the tokens are `[Number(1), Plus, Number(2)]`. -/
theorem tokenizer_renderSpaced_witness :
    (∀ it ∈ [(Lexeme.number 1, 0), (Lexeme.plus, 0), (Lexeme.number 2, 0)], it.1.fits) ∧
      renderSpaced [(Lexeme.number 1, 0), (Lexeme.plus, 0), (Lexeme.number 2, 0)] =
        "1 + 2".toList ∧
      tokenizer (String.mk (spaces 0 ++
          renderSpaced [(Lexeme.number 1, 0), (Lexeme.plus, 0), (Lexeme.number 2, 0)])) =
        .returned [Token.withValue .Number 1, Token.withPrecedence .Plus 1,
          Token.withValue .Number 2] :=
  ⟨by decide, by decide,
    tokenizer_renderSpaced 0 [(Lexeme.number 1, 0), (Lexeme.plus, 0), (Lexeme.number 2, 0)]
      (by decide)⟩

/-- C8 as stated fails: the pieces `12abc`, `1+2` and `+5` are not base-10 integers,
and each of them produces a `Number` token (of value 12, 1 and 5). -/
theorem tokenizer_number_from_leading_digits :
    (isDecimalInteger "12abc".toList = false ∧
        tokenizer "12abc" = .returned [Token.withValue .Number 12]) ∧
      (isDecimalInteger "1+2".toList = false ∧
        tokenizer "1+2" = .returned [Token.withValue .Number 1]) ∧
      (isDecimalInteger "+5".toList = false ∧
        tokenizer "+5" = .returned [Token.withValue .Number 5]) := by
  decide

/-- C8, amended: a piece produces a `Number` token only if it is made of optional
white-space characters, an optional sign `-` or `+`, one or more decimal
digits, and a rest that does not start with a digit; the value of the token is
the value of the digits, negated after `-`, whatever the rest is. -/
theorem classify_number_only_if (piece : List Char) (ts : List Token) (t : Token)
    (hret : classify piece = .returned ts) (ht : t ∈ ts) (hnum : t.m_type = TokenType.Number) :
    ∃ ws sign digits rest, piece = ws ++ sign ++ digits ++ rest ∧
      (∀ c ∈ ws, isspace c = true) ∧ (sign = [] ∨ sign = ['-'] ∨ sign = ['+']) ∧
      digits ≠ [] ∧ (∀ c ∈ digits, isdigit c = true) ∧ (∀ c ∈ rest.head?, isdigit c = false) ∧
      t.m_value = some (if sign = ['-'] then -(digitsValue 0 digits : Int)
        else (digitsValue 0 digits : Int)) := by
  obtain ⟨v, hv, hval⟩ := classify_number_value piece ts t hret ht hnum
  obtain ⟨ws, sign, digits, rest, h1, h2, h3, h4, h5, h6, h7⟩ := stoll_value_shape piece v hv
  exact ⟨ws, sign, digits, rest, h1, h2, h3, h4, h5, h6, by rw [hval, h7]⟩

/-- C8, amended, at the piece `12abc` and its token `Number(12)`. -/
theorem classify_number_only_if_witness :
    ∃ ws sign digits rest, "12abc".toList = ws ++ sign ++ digits ++ rest ∧
      (∀ c ∈ ws, isspace c = true) ∧ (sign = [] ∨ sign = ['-'] ∨ sign = ['+']) ∧
      digits ≠ [] ∧ (∀ c ∈ digits, isdigit c = true) ∧ (∀ c ∈ rest.head?, isdigit c = false) ∧
      (Token.withValue .Number 12).m_value = some (if sign = ['-'] then -(digitsValue 0 digits : Int)
        else (digitsValue 0 digits : Int)) :=
  classify_number_only_if "12abc".toList [Token.withValue .Number 12] (Token.withValue .Number 12)
    (by decide) (by simp) rfl

/-- C9 (evaluation of the failing input): on `"99999999999999999999"`, `std::stoll`
throws `std::out_of_range`, which `parse_int` does not catch; `tokenizer`
returns no token sequence. -/
theorem tokenizer_out_of_range_escapes :
    tokenizer "99999999999999999999" = .uncaughtOutOfRange := by
  decide

/-- C10 as stated fails: tabs do not separate tokens.  The line `1\t+\t2` is one piece,
and the tokenizer returns `[Number(1)]`, not `[Number(1), Plus, Number(2)]`. -/
theorem tokenizer_tab_does_not_split :
    splitLoop "1\t+\t2".toList [] = ["1\t+\t2".toList] ∧
      tokenizer "1\t+\t2" = .returned [Token.withValue .Number 1] ∧
      tokenizer "1\t+\t2" ≠ .returned [Token.withValue .Number 1, Token.withPrecedence .Plus 1,
        Token.withValue .Number 2] := by
  decide

/-- C10, amended: the tokenizer splits on runs of the space character.  For every
non-empty list of forms whose numbers fit, the line made of their texts
separated by non-empty runs of white space is tokenized into their tokens,
provided every character of the runs is the space. -/
theorem tokenizer_renderSeparated (first : Lexeme) (rest : List (List Char × Lexeme))
    (hfit : first.fits ∧ ∀ p ∈ rest, p.2.fits)
    (hrun : ∀ p ∈ rest, p.1 ≠ [] ∧ ∀ c ∈ p.1, isspace c = true)
    (hspace : ∀ p ∈ rest, ∀ c ∈ p.1, c = ' ') :
    tokenizer (String.mk (first.text ++ renderSeparated rest)) =
      .returned (first.token :: rest.map fun p => p.2.token) := by
  obtain ⟨hne, hns⟩ := text_no_space first
  have hsep : ∀ p ∈ rest, p.1 ≠ [] ∧ ∀ c ∈ p.1, c = ' ' :=
    fun p hp => ⟨(hrun p hp).1, hspace p hp⟩
  have h1 : splitLoop (first.text ++ renderSeparated rest) [] =
      (first :: rest.map fun p => p.2).map Lexeme.text := by
    rw [splitLoop_word first.text hns, List.nil_append,
      splitLoop_renderSeparated rest hsep first.text hne]
    simp
  have h2 : (first.token :: rest.map fun p => p.2.token) =
      (first :: rest.map fun p => p.2).map Lexeme.token := by
    simp
  show classifyAll (splitLoop (first.text ++ renderSeparated rest) []) = _
  rw [h1, h2]
  apply classifyAll_texts
  intro l hl
  rcases List.mem_cons.mp hl with h | h
  · rw [h]; exact hfit.1
  · obtain ⟨q, hq, rfl⟩ := List.mem_map.mp h
    exact hfit.2 q hq

/-- C10, amended, at the line `1`, two spaces, `+`, one space, `2`. -/
theorem tokenizer_renderSeparated_witness :
    Lexeme.number 1 :: [Lexeme.plus, Lexeme.number 2] = [Lexeme.number 1, .plus, .number 2] ∧
      tokenizer (String.mk ((Lexeme.number 1).text ++
          renderSeparated [([' ', ' '], Lexeme.plus), ([' '], Lexeme.number 2)])) =
        .returned [Token.withValue .Number 1, Token.withPrecedence .Plus 1,
          Token.withValue .Number 2] :=
  ⟨rfl, tokenizer_renderSeparated (Lexeme.number 1)
    [([' ', ' '], Lexeme.plus), ([' '], Lexeme.number 2)] (by decide) (by decide) (by decide)⟩

/-- C12: multiplication and division bind tighter than addition and subtraction.  For
all values `a`, `b`, `c`, every operator `p` of precedence 1 and every operator
`q` of precedence 2, `[a, p, b, q, c]` is parsed to the postfix `[a, b, c, q, p]`
and `[a, q, b, p, c]` to the postfix `[a, b, q, c, p]`. -/
theorem parse_higher_precedence_binds_tighter (a b c : Int) (p q : Token)
    (hp : (p.m_type = TokenType.Plus ∨ p.m_type = TokenType.Subtract) ∧ p.m_precedence = some 1)
    (hq : (q.m_type = TokenType.Multiply ∨ q.m_type = TokenType.Divide) ∧
      q.m_precedence = some 2) :
    (∃ out, parse [Token.withValue .Number a, p, Token.withValue .Number b, q,
        Token.withValue .Number c] = .returned (out, ErrorKind.None) ∧
      bottomToTop out = [Token.withValue .Number a, Token.withValue .Number b,
        Token.withValue .Number c, q, p]) ∧
    (∃ out, parse [Token.withValue .Number a, q, Token.withValue .Number b, p,
        Token.withValue .Number c] = .returned (out, ErrorKind.None) ∧
      bottomToTop out = [Token.withValue .Number a, Token.withValue .Number b, q,
        Token.withValue .Number c, p]) := by
  obtain ⟨hp1, hp2⟩ := hp
  obtain ⟨hq1, hq2⟩ := hq
  rcases hp1 with hp1 | hp1 <;> rcases hq1 with hq1 | hq1 <;>
    simp [parse, parseLoop, parseStep, operatorLoop, drain, bottomToTop, Token.withValue,
      hp1, hp2, hq1, hq2]

/-- C12 at `[Number(1), Plus, Number(2), Multiply, Number(3)]`: the postfix is
`[1, 2, 3, *, +]`. -/
theorem parse_higher_precedence_binds_tighter_witness :
    (∃ out, parse [Token.withValue .Number 1, Token.withPrecedence .Plus 1,
        Token.withValue .Number 2, Token.withPrecedence .Multiply 2,
        Token.withValue .Number 3] = .returned (out, ErrorKind.None) ∧
      bottomToTop out = [Token.withValue .Number 1, Token.withValue .Number 2,
        Token.withValue .Number 3, Token.withPrecedence .Multiply 2,
        Token.withPrecedence .Plus 1]) ∧
    (∃ out, parse [Token.withValue .Number 1, Token.withPrecedence .Multiply 2,
        Token.withValue .Number 2, Token.withPrecedence .Plus 1,
        Token.withValue .Number 3] = .returned (out, ErrorKind.None) ∧
      bottomToTop out = [Token.withValue .Number 1, Token.withValue .Number 2,
        Token.withPrecedence .Multiply 2, Token.withValue .Number 3,
        Token.withPrecedence .Plus 1]) :=
  parse_higher_precedence_binds_tighter 1 2 3 (Token.withPrecedence .Plus 1)
    (Token.withPrecedence .Multiply 2) (by decide) (by decide)

/-- C13: parentheses override precedence and are not emitted.  For all values `a`, `b`,
`c` and all binary operator tokens `p`, `q`, `[(, a, p, b, ), q, c]` is parsed with
`ErrorKind::None` to the postfix `[a, b, p, c, q]`. -/
theorem parse_group_first (a b c : Int) (o cl p q : Token)
    (ho : o.m_type = TokenType.OpenParenthesis) (hcl : cl.m_type = TokenType.CloseParenthesis)
    (hp : p.isOperator) (hq : q.isOperator) :
    ∃ out, parse [o, Token.withValue .Number a, p, Token.withValue .Number b, cl, q,
        Token.withValue .Number c] = .returned (out, ErrorKind.None) ∧
      bottomToTop out = [Token.withValue .Number a, Token.withValue .Number b, p,
        Token.withValue .Number c, q] := by
  rcases hp with hp | hp | hp | hp <;> rcases hq with hq | hq | hq | hq <;>
    simp [parse, parseLoop, parseStep, operatorLoop, closeLoop, drain, bottomToTop,
      Token.withValue, ho, hcl, hp, hq]

/-- C13 at `[OpenParen, Number(1), Plus, Number(2), CloseParen, Multiply, Number(3)]`:
the postfix is `[1, 2, +, 3, *]`. -/
theorem parse_group_first_witness :
    ∃ out, parse [Token.ofType .OpenParenthesis, Token.withValue .Number 1,
        Token.withPrecedence .Plus 1, Token.withValue .Number 2,
        Token.ofType .CloseParenthesis, Token.withPrecedence .Multiply 2,
        Token.withValue .Number 3] = .returned (out, ErrorKind.None) ∧
      bottomToTop out = [Token.withValue .Number 1, Token.withValue .Number 2,
        Token.withPrecedence .Plus 1, Token.withValue .Number 3,
        Token.withPrecedence .Multiply 2] :=
  parse_group_first 1 2 3 (Token.ofType .OpenParenthesis) (Token.ofType .CloseParenthesis)
    (Token.withPrecedence .Plus 1) (Token.withPrecedence .Multiply 2) rfl rfl
    (by decide) (by decide)

/-- C15: a binary operator moves the top of the operator stack to the output only
when the top is not an `OpenParenthesis` and has strictly greater precedence.
An `OpenParenthesis` on top ends the loop before any precedence is read, also
when its precedence is not set, and the operator is stacked above it; a top that
is not an `OpenParenthesis` is moved exactly when the precedence of the operator
is strictly less; a top of equal precedence stays.  So for all values `a`, `b`,
`c` and binary operators `p`, `q` of equal precedence, `[a, p, b, q, c]` is parsed to
the postfix `[a, b, c, q, p]`. -/
theorem parse_equal_precedence_not_popped (a b c : Int) (p q : Token)
    (hp : p.isBinary) (hq : q.isBinary) (heq : p.m_precedence = q.m_precedence) :
    (∀ (tok top : Token) (ops output : List Token),
      top.m_type = TokenType.OpenParenthesis →
      operatorLoop tok (top :: ops) output = .returned (top :: ops, output)) ∧
    (∀ (top : Token) (ops output : List Token),
      top.m_type = TokenType.OpenParenthesis →
      parseStep q (top :: ops, output) = .returned (q :: top :: ops, output)) ∧
    (∀ (top : Token) (ops output : List Token) (r s : Int),
      top.m_type ≠ TokenType.OpenParenthesis →
      q.m_precedence = some r → top.m_precedence = some s →
      operatorLoop q (top :: ops) output =
        if r < s then operatorLoop q ops (top :: output) else .returned (top :: ops, output)) ∧
    (∀ (tok : Token) (output : List Token), operatorLoop tok [] output = .returned ([], output)) ∧
    (∀ ops output, operatorLoop q (p :: ops) output = .returned (p :: ops, output)) ∧
    ∃ out, parse [Token.withValue .Number a, p, Token.withValue .Number b, q,
        Token.withValue .Number c] = .returned (out, ErrorKind.None) ∧
      bottomToTop out = [Token.withValue .Number a, Token.withValue .Number b,
        Token.withValue .Number c, q, p] := by
  obtain ⟨r, hr⟩ := hq.precedence_set
  have hpr : p.m_precedence = some r := by rw [heq, hr]
  have hopen : ∀ (tok top : Token) (ops output : List Token),
      top.m_type = TokenType.OpenParenthesis →
      operatorLoop tok (top :: ops) output = .returned (top :: ops, output) := by
    intro tok top ops output ht
    simp [operatorLoop, ht]
  have hloop : ∀ ops output, operatorLoop q (p :: ops) output = .returned (p :: ops, output) := by
    intro ops output
    simp [operatorLoop, hp.not_open, hr, hpr]
  refine ⟨hopen, ?_, ?_, fun _ _ => rfl, hloop, ?_⟩
  · intro top ops output ht
    simp [parseStep, hq.not_number, hq.not_open, hq.not_close, hopen q top ops output ht]
  · intro top ops output r1 s ht h1 h2
    by_cases hlt : r1 < s <;> simp [operatorLoop, ht, h1, h2, hlt]
  · refine ⟨[p, q, Token.withValue .Number c, Token.withValue .Number b,
      Token.withValue .Number a], ?_, by simp [bottomToTop]⟩
    simp [parse, parseLoop, parseStep, hp.not_number, hp.not_open, hp.not_close,
      hq.not_number, hq.not_open, hq.not_close, operatorLoop, hr, hpr, drain, Token.withValue]

/-- C15 at `[Number(1), Plus, Number(2), Subtract, Number(3)]`, whose postfix is
`[1, 2, 3, -, +]`, and at the operator `Subtract` met with the `OpenParenthesis` the
tokenizer builds, whose precedence is not set, on top of the stack. -/
theorem parse_equal_precedence_not_popped_witness :
    operatorLoop (Token.withPrecedence .Subtract 1)
        [Token.ofType .OpenParenthesis, Token.withPrecedence .Multiply 2] [] =
        .returned ([Token.ofType .OpenParenthesis, Token.withPrecedence .Multiply 2], []) ∧
      parseStep (Token.withPrecedence .Subtract 1)
        ([Token.ofType .OpenParenthesis, Token.withPrecedence .Multiply 2], []) =
        .returned ([Token.withPrecedence .Subtract 1, Token.ofType .OpenParenthesis,
          Token.withPrecedence .Multiply 2], []) ∧
      ∃ out, parse [Token.withValue .Number 1, Token.withPrecedence .Plus 1,
        Token.withValue .Number 2, Token.withPrecedence .Subtract 1,
        Token.withValue .Number 3] = .returned (out, ErrorKind.None) ∧
      bottomToTop out = [Token.withValue .Number 1, Token.withValue .Number 2,
        Token.withValue .Number 3, Token.withPrecedence .Subtract 1,
        Token.withPrecedence .Plus 1] :=
  ⟨(parse_equal_precedence_not_popped 1 2 3 (Token.withPrecedence .Plus 1)
      (Token.withPrecedence .Subtract 1) (by decide) (by decide) rfl).1 _ _ _ _ rfl,
    (parse_equal_precedence_not_popped 1 2 3 (Token.withPrecedence .Plus 1)
      (Token.withPrecedence .Subtract 1) (by decide) (by decide) rfl).2.1 _ _ _ rfl,
    (parse_equal_precedence_not_popped 1 2 3 (Token.withPrecedence .Plus 1)
      (Token.withPrecedence .Subtract 1) (by decide) (by decide) rfl).2.2.2.2.2⟩

/-- C16: for every input string on which the tokenizer and `parse` return, `evaluate`
returns `-1`, whatever the tokens and the postfix sequence are. -/
theorem evaluate_returns_minus_one (src : String) (toks : List Token)
    (r : List Token × ErrorKind) (htok : tokenizer src = .returned toks)
    (hparse : parse toks = .returned r) : evaluate src = .returned (-1) := by
  simp [evaluate, htok, hparse]

/-- C16 at the line `1 + 2`. -/
theorem evaluate_returns_minus_one_witness : evaluate "1 + 2" = .returned (-1) :=
  evaluate_returns_minus_one "1 + 2"
    [Token.withValue .Number 1, Token.withPrecedence .Plus 1, Token.withValue .Number 2]
    ([Token.withPrecedence .Plus 1, Token.withValue .Number 2, Token.withValue .Number 1],
      ErrorKind.None)
    (by decide) (by decide)

/-- C11: a space-delimited piece that `parse_int` rejects and that is not one of the
six literals contributes no token, and the rest of the line is tokenized as
if the piece were not there.  The line is `pre ++ piece ++ post`, where `pre` is
empty or ends with a space and `post` is empty or starts with a space. -/
theorem tokenizer_skips_rejected_piece (pre piece post : List Char)
    (hpre : pre = [] ∨ ∃ q, pre = q ++ [' '])
    (hpost : post = [] ∨ ∃ q, post = ' ' :: q)
    (hpiece : piece ≠ [] ∧ ∀ c ∈ piece, c ≠ ' ')
    (hrej : ∃ v, parse_int piece = .returned (v, ErrorKind.ParseIntError))
    (hlit : piece ∉ literalPieces) :
    splitLoop (pre ++ piece ++ post) [] = splitLoop pre [] ++ piece :: splitLoop post [] ∧
      classify piece = .returned [] ∧
      tokenizer (String.mk (pre ++ piece ++ post)) = tokenizer (String.mk (pre ++ post)) := by
  have hsplit : ∀ rest, splitLoop (pre ++ rest) [] = splitLoop pre [] ++ splitLoop rest [] := by
    intro rest
    rcases hpre with h | ⟨q, h⟩
    · simp [h, splitLoop]
    · rw [h, List.append_assoc, List.singleton_append, splitLoop_space_end]
  have hword : splitLoop (piece ++ post) [] = piece :: splitLoop post [] := by
    rw [splitLoop_word piece hpiece.2, List.nil_append]
    rcases hpost with h | ⟨q, h⟩
    · simp [h, splitLoop, hpiece.1]
    · rw [h, splitLoop_space_after _ _ hpiece.1]
      simp [splitLoop]
  have hclass := classify_rejected piece hrej hlit
  have h1 : splitLoop (pre ++ piece ++ post) [] = splitLoop pre [] ++ piece :: splitLoop post [] := by
    rw [List.append_assoc, hsplit, hword]
  refine ⟨h1, hclass, ?_⟩
  show classifyAll (splitLoop (pre ++ piece ++ post) []) = classifyAll (splitLoop (pre ++ post) [])
  rw [h1, hsplit, classifyAll_append, classifyAll_append]
  simp [classifyAll, hclass, Outcome.bind_returned_self]

/-- C11 at the line `1 abc + 2` and its piece `abc`. -/
theorem tokenizer_skips_rejected_piece_witness :
    splitLoop ("1 ".toList ++ "abc".toList ++ " + 2".toList) [] =
        splitLoop "1 ".toList [] ++ "abc".toList :: splitLoop " + 2".toList [] ∧
      classify "abc".toList = .returned [] ∧
      tokenizer (String.mk ("1 ".toList ++ "abc".toList ++ " + 2".toList)) =
        tokenizer (String.mk ("1 ".toList ++ " + 2".toList)) :=
  tokenizer_skips_rejected_piece "1 ".toList "abc".toList " + 2".toList
    (Or.inr ⟨['1'], rfl⟩) (Or.inr ⟨"+ 2".toList, rfl⟩) (by decide) ⟨-1, by decide⟩ (by decide)

/-- C14: `parse` does not reject arity errors.  For every sequence of number tokens
and binary operator tokens, in any arrangement, `parse` returns with
`ErrorKind::None`; for the empty sequence the postfix sequence is empty. -/
theorem parse_accepts_without_parentheses (toks : List Token)
    (h : ∀ t ∈ toks, t.m_type = TokenType.Number ∨ t.isBinary) :
    (∃ out, parse toks = .returned (out, ErrorKind.None)) ∧
      parse [] = .returned ([], ErrorKind.None) := by
  refine ⟨?_, rfl⟩
  have hbuilt : ∀ t ∈ toks, t.isBuilt := by
    intro t ht hop
    rcases h t ht with h1 | h1
    · exfalso
      rcases hop with h2 | h2 | h2 | h2 <;> rw [h1] at h2 <;> cases h2
    · exact h1
  have hpre : PrefixBalanced toks := by
    intro pre hp
    have hsub : ∀ t ∈ pre, t ∈ toks := fun t ht => ((List.mem_inits pre toks).mp hp).subset ht
    have : closes pre = 0 := by
      rw [closes, List.countP_eq_zero]
      intro t ht
      rcases h t (hsub t ht) with h1 | h1
      · simp [isClose, h1]
      · simp [h1.flags.2.1]
    omega
  obtain ⟨st1, _, _, hparse⟩ := parse_prefixBalanced toks hbuilt hpre
  exact ⟨_, hparse⟩

/-- C14 at `[Plus, Multiply, Number(1), Subtract]`: two operators in a row and a
trailing operator. -/
theorem parse_accepts_without_parentheses_witness :
    (∃ out, parse [Token.withPrecedence .Plus 1, Token.withPrecedence .Multiply 2,
        Token.withValue .Number 1, Token.withPrecedence .Subtract 1] =
        .returned (out, ErrorKind.None)) ∧
      parse [] = .returned ([], ErrorKind.None) :=
  parse_accepts_without_parentheses
    [Token.withPrecedence .Plus 1, Token.withPrecedence .Multiply 2,
      Token.withValue .Number 1, Token.withPrecedence .Subtract 1] (by decide)

/-- C17: for every token sequence with balanced parentheses, `parse` returns with
`ErrorKind::None` a postfix sequence that holds no parenthesis token, is a
permutation of the number and operator tokens of the input (so its length is the
length of the input less the number of parenthesis tokens), and holds the
`Number` tokens in the order of the input. -/
theorem parse_balanced_rearranges (toks : List Token) (hbuilt : ∀ t ∈ toks, t.isBuilt)
    (hbal : Balanced toks) :
    ∃ out, parse toks = .returned (out, ErrorKind.None) ∧
      (∀ t ∈ bottomToTop out, isOpen t = false ∧ isClose t = false) ∧
      List.Perm (bottomToTop out) (nonParen toks) ∧
      (bottomToTop out).length = toks.length - (opens toks + closes toks) ∧
      numbers (bottomToTop out) = numbers toks := by
  obtain ⟨⟨ops, output⟩, _, ⟨hstack, hcount, hperm, hnum, hfree⟩, hparse⟩ :=
    parse_prefixBalanced toks hbuilt hbal.1
  simp only [opens, closes, List.countP_nil, nonParen, numbers, List.filter_nil,
    List.append_nil, List.not_mem_nil, false_implies, implies_true, true_implies] at hcount hperm hnum hfree
  have h0 : opens ops = 0 := by
    have := hbal.2
    simp only [opens, closes] at this ⊢
    omega
  have hbin := stack_binary_of_no_open ops hstack h0
  have hnp : List.filter (fun t => !isOpen t && !isClose t) ops = ops := nonParen_binary ops hbin
  have hperm2 : List.Perm (bottomToTop (ops.reverse ++ output)) (nonParen toks) := by
    rw [hnp] at hperm
    refine List.Perm.trans ?_ hperm
    rw [List.perm_iff_count]
    intro x
    simp [bottomToTop, List.count_append]
  refine ⟨ops.reverse ++ output, hparse, ?_, hperm2, ?_, ?_⟩
  · intro t ht
    simp only [bottomToTop, List.reverse_append, List.reverse_reverse, List.mem_append,
      List.mem_reverse] at ht
    rcases ht with h1 | h1
    · exact hfree t h1
    · exact ⟨(hbin t h1).flags.1, (hbin t h1).flags.2.1⟩
  · have := nonParen_length toks
    rw [hperm2.length_eq]
    omega
  · have hb : numbers ops = [] := numbers_binary ops hbin
    show numbers (bottomToTop (ops.reverse ++ output)) = List.filter isNumber toks
    simp only [bottomToTop, List.reverse_append, List.reverse_reverse, numbers_append, hb,
      List.append_nil]
    rw [numbers, List.filter_reverse, hnum, List.reverse_reverse]

/-- C17 at the tokens of `( 1 + 2 ) * 3`. -/
theorem parse_balanced_rearranges_witness :
    ∃ out, parse [Token.ofType .OpenParenthesis, Token.withValue .Number 1,
        Token.withPrecedence .Plus 1, Token.withValue .Number 2,
        Token.ofType .CloseParenthesis, Token.withPrecedence .Multiply 2,
        Token.withValue .Number 3] = .returned (out, ErrorKind.None) ∧
      (∀ t ∈ bottomToTop out, isOpen t = false ∧ isClose t = false) ∧
      List.Perm (bottomToTop out) (nonParen [Token.ofType .OpenParenthesis,
        Token.withValue .Number 1, Token.withPrecedence .Plus 1, Token.withValue .Number 2,
        Token.ofType .CloseParenthesis, Token.withPrecedence .Multiply 2,
        Token.withValue .Number 3]) ∧
      (bottomToTop out).length = [Token.ofType .OpenParenthesis,
        Token.withValue .Number 1, Token.withPrecedence .Plus 1, Token.withValue .Number 2,
        Token.ofType .CloseParenthesis, Token.withPrecedence .Multiply 2,
        Token.withValue .Number 3].length - (opens [Token.ofType .OpenParenthesis,
        Token.withValue .Number 1, Token.withPrecedence .Plus 1, Token.withValue .Number 2,
        Token.ofType .CloseParenthesis, Token.withPrecedence .Multiply 2,
        Token.withValue .Number 3] + closes [Token.ofType .OpenParenthesis,
        Token.withValue .Number 1, Token.withPrecedence .Plus 1, Token.withValue .Number 2,
        Token.ofType .CloseParenthesis, Token.withPrecedence .Multiply 2,
        Token.withValue .Number 3]) ∧
      numbers (bottomToTop out) = numbers [Token.ofType .OpenParenthesis,
        Token.withValue .Number 1, Token.withPrecedence .Plus 1, Token.withValue .Number 2,
        Token.ofType .CloseParenthesis, Token.withPrecedence .Multiply 2,
        Token.withValue .Number 3] :=
  parse_balanced_rearranges _ (by decide) (by decide)

/-- C18: on tokens no initial segment of which has more `CloseParenthesis` than
`OpenParenthesis` tokens, `parse` returns: at every `CloseParenthesis` the loop has
returned on the tokens before it, the operator stack holds an `OpenParenthesis`,
and the `while (true)` loop returns; `top()` is never called on an empty
stack. -/
theorem parse_total_on_prefixBalanced (toks : List Token) (hbuilt : ∀ t ∈ toks, t.isBuilt)
    (hpre : PrefixBalanced toks) :
    (∃ out, parse toks = .returned (out, ErrorKind.None)) ∧
      ∀ before c after, toks = before ++ c :: after →
        c.m_type = TokenType.CloseParenthesis →
        ∃ ops output, parseLoop before ([], []) = .returned (ops, output) ∧
          (∃ o ∈ ops, o.m_type = TokenType.OpenParenthesis) ∧
          ∃ st, closeLoop ops output = .returned st := by
  constructor
  · obtain ⟨st1, _, _, hparse⟩ := parse_prefixBalanced toks hbuilt hpre
    exact ⟨_, hparse⟩
  · intro before c after hsplit hc
    have hb1 : ∀ t ∈ before, t.isBuilt := fun t ht => hbuilt t (by simp [hsplit, ht])
    have hp1 : PrefixBalanced before := by
      rw [hsplit] at hpre
      exact hpre.of_append
    obtain ⟨⟨ops, output⟩, hrun, ⟨hstack, hcount, _⟩, _⟩ := parse_prefixBalanced before hb1 hp1
    have hp2 := hpre (before ++ [c]) (by
      rw [List.mem_inits, hsplit]
      exact ⟨after, by simp⟩)
    have hopen : 1 ≤ opens ops := by
      rw [closes_append, opens_append] at hp2
      have h1 : closes [c] = 1 := by simp [closes, isClose, hc]
      have h2 : opens [c] = 0 := by simp [opens, isOpen, hc]
      simp only [opens, List.countP_nil] at hcount hp2 h1 h2 ⊢
      simp only [closes] at hcount hp2 h1
      omega
    obtain ⟨moved, o, rest, hs, _, ho, hclose⟩ := closeLoop_stackable ops hstack hopen output
    exact ⟨ops, output, hrun, ⟨o, by simp [hs], ho⟩, _, hclose⟩

/-- C18 at the tokens of `( 1 ) ( 2 )`. -/
theorem parse_total_on_prefixBalanced_witness :
    (∃ out, parse [Token.ofType .OpenParenthesis, Token.withValue .Number 1,
        Token.ofType .CloseParenthesis, Token.ofType .OpenParenthesis,
        Token.withValue .Number 2, Token.ofType .CloseParenthesis] =
        .returned (out, ErrorKind.None)) ∧
      ∀ before c after, [Token.ofType .OpenParenthesis, Token.withValue .Number 1,
        Token.ofType .CloseParenthesis, Token.ofType .OpenParenthesis,
        Token.withValue .Number 2, Token.ofType .CloseParenthesis] = before ++ c :: after →
        c.m_type = TokenType.CloseParenthesis →
        ∃ ops output, parseLoop before ([], []) = .returned (ops, output) ∧
          (∃ o ∈ ops, o.m_type = TokenType.OpenParenthesis) ∧
          ∃ st, closeLoop ops output = .returned st :=
  parse_total_on_prefixBalanced _ (by decide) (by decide)

/-- C19: `parse` does not depend on a field the constructors leave unset.  For two
token sequences that agree position by position on the type, on the value of
`Number` tokens and on the precedence of operator tokens, the runs of `parse`
end the same way, with output stacks that agree in the same sense and the same
error kind; and after any number of tokens the loop is in agreeing states, so
the two runs take the same branches. -/
theorem parse_agree_on_set_fields (xs ys : List Token) (h : List.Forall₂ Token.agree xs ys) :
    Outcome.Rel ResultAgree (parse xs) (parse ys) ∧
      ∀ k, Outcome.Rel StateAgree (parseLoop (xs.take k) ([], []))
        (parseLoop (ys.take k) ([], [])) := by
  have hstart : StateAgree ([], []) ([], []) := ⟨List.Forall₂.nil, List.Forall₂.nil⟩
  constructor
  · unfold parse
    apply (parseLoop_agree h _ _ hstart (by simp)).bind
    intro a b _ _ hab
    exact ⟨drain_agree hab.1 _ _ hab.2, rfl⟩
  · intro k
    exact parseLoop_agree (List.forall₂_take k h) _ _ hstart (by simp)

/-- C19 at `[Number(1), Plus, OpenParenthesis]` built by the constructors and the same
tokens with other contents in the fields the constructors leave unset. -/
theorem parse_agree_on_set_fields_witness :
    Outcome.Rel ResultAgree
        (parse [Token.withValue .Number 1, Token.withPrecedence .Plus 1,
          Token.ofType .OpenParenthesis])
        (parse [⟨.Number, some 7, some 1⟩, ⟨.Plus, some 1, some 9⟩,
          ⟨.OpenParenthesis, some 3, some 4⟩]) ∧
      ∀ k, Outcome.Rel StateAgree
        (parseLoop ([Token.withValue .Number 1, Token.withPrecedence .Plus 1,
          Token.ofType .OpenParenthesis].take k) ([], []))
        (parseLoop (([⟨.Number, some 7, some 1⟩, ⟨.Plus, some 1, some 9⟩,
          ⟨.OpenParenthesis, some 3, some 4⟩] : List Token).take k) ([], [])) :=
  parse_agree_on_set_fields _ _
    (List.Forall₂.cons (by decide) (List.Forall₂.cons (by decide)
      (List.Forall₂.cons (by decide) List.Forall₂.nil)))

end MathSolver
